import Mathlib

/-!
Verification of the Golomb-based lossless media codecs (trabalho2): the
bit-level stream, the Golomb entropy coder (`golomb.cpp` / `golomb.h`), the
predictive audio codec (`audio_codec.cpp`) and the predictive image codec
(`image_codec.cpp`), shallowly embedded as Lean functions over bit lists.
-/

namespace GACL

/-! ## BitStream layer

Modelled from the spec: the BitStream implementation file (`bit_stream.h` /
`bit_stream.cpp`) is not part of the source tree (only its users are), so the
stream is modelled from spec section 4.1 as the sequence of bits it carries:
a write-side stream is the list of bits emitted in order, and a read-side
stream is consumed from the front, MSB-first within each emitted value. -/

/-- Modelled from the spec: `write_n_bits(value, n)` emits the `n`
least-significant bits of `value`, most-significant bit first; bit `k` of
`value` is `(value >> k) & 1`. -/
def natBits (value : Nat) : Nat → List Bool
  | 0 => []
  | n + 1 => decide (value / 2 ^ n % 2 = 1) :: natBits value n

/-- Modelled from the spec: `read_n_bits(n)` reads `n` bits MSB-first and
assembles them into an unsigned integer; reading past end-of-stream yields
zero-padded bits. Returns the value and the remaining stream. -/
def readNBits : Nat → List Bool → Nat × List Bool
  | 0, s => (0, s)
  | _ + 1, [] => (0, [])
  | n + 1, b :: s =>
      let p := readNBits n s
      ((if b then 1 else 0) * 2 ^ n + p.1, p.2)

/-! ## Golomb coder (`golomb.cpp`, `golomb.h`) -/

/-- The two sign-mapping policies of `golomb.h`. -/
inductive NegativeHandling
  | SIGN_AND_MAGNITUDE
  | INTERLEAVING
deriving DecidableEq, Repr

/-- The member `Golomb::write_unary`: `n` zero bits followed by a single one bit. -/
def writeUnary (n : Nat) : List Bool :=
  List.replicate n false ++ [true]

/-- The member `Golomb::read_unary`: count zero bits up to the terminating one bit;
end-of-stream before the terminating bit is the EOF error (`none`). -/
def readUnary : List Bool → Option (Nat × List Bool)
  | [] => none
  | b :: s =>
      if b then some (0, s)
      else (readUnary s).map fun p => (p.1 + 1, p.2)

/-- Fuel-driven ceiling base-2 logarithm, satisfying
`clog2Fuel f m = Nat.clog 2 m` whenever `m ≤ f` (see `clog2Fuel_eq_clog`). -/
def clog2Fuel : Nat → Nat → Nat
  | 0, _ => 0
  | f + 1, m => if m ≤ 1 then 0 else clog2Fuel f ((m + 1) / 2) + 1

/-- The derived constant `b = ceil(log2 m)` of `Golomb::encode_unsigned`. -/
def golombB (m : Nat) : Nat := clog2Fuel m m

/-- The derived constant `cutoff = 2^b - m` of `Golomb::encode_unsigned`. -/
def golombCutoff (m : Nat) : Nat := 2 ^ golombB m - m

/-- The member `Golomb::encode_unsigned` for divisor `m`: pure unary when `m = 1`;
otherwise unary quotient followed by the truncated-binary remainder
(`r` in `b - 1` bits when `r < cutoff`, else `r + cutoff` in `b` bits). -/
def encodeUnsigned (m n : Nat) : List Bool :=
  if m = 1 then writeUnary n
  else
    let q := n / m
    let r := n % m
    let b := golombB m
    let cutoff := golombCutoff m
    if r < cutoff then writeUnary q ++ natBits r (b - 1)
    else writeUnary q ++ natBits (r + cutoff) b

/-- The member `Golomb::decode_unsigned` for divisor `m`, consuming from the front of the
bit list; `none` models the EOF exceptions. -/
def decodeUnsigned (m : Nat) (s : List Bool) : Option (Nat × List Bool) :=
  if m = 1 then readUnary s
  else
    match readUnary s with
    | none => none
    | some qs =>
        let b := golombB m
        let cutoff := golombCutoff m
        let p := readNBits (b - 1) qs.2
        if p.1 < cutoff then some (qs.1 * m + p.1, p.2)
        else
          match p.2 with
          | [] => none
          | t :: s3 =>
              some (qs.1 * m + ((2 * p.1 + (if t then 1 else 0)) - cutoff), s3)

/-- The interleaving sign map of `Golomb::encode`:
`n >= 0 -> 2n`, `n < 0 -> -2n - 1`. -/
def interleaveMap (n : Int) : Nat :=
  if 0 ≤ n then (2 * n).toNat else (-2 * n - 1).toNat

/-- The member `Golomb::encode` for divisor `m` and sign mode: interleaving maps the
signed value and encodes it unsigned; sign-and-magnitude emits a sign bit
(1 when negative) followed by the unsigned encoding of the magnitude. -/
def golombEncode (m : Nat) (mode : NegativeHandling) (n : Int) : List Bool :=
  match mode with
  | .INTERLEAVING => encodeUnsigned m (interleaveMap n)
  | .SIGN_AND_MAGNITUDE => decide (n < 0) :: encodeUnsigned m n.natAbs

/-- The member `Golomb::decode` for divisor `m` and sign mode. -/
def golombDecode (m : Nat) (mode : NegativeHandling) (s : List Bool) :
    Option (Int × List Bool) :=
  match mode with
  | .INTERLEAVING =>
      (decodeUnsigned m s).map fun p =>
        (if p.1 % 2 = 0 then ((p.1 / 2 : Nat) : Int)
         else -(((p.1 + 1) / 2 : Nat) : Int), p.2)
  | .SIGN_AND_MAGNITUDE =>
      match s with
      | [] => none
      | sb :: s1 =>
          (decodeUnsigned m s1).map fun p =>
            (if sb then -(p.1 : Int) else (p.1 : Int), p.2)

/-- Decoding a fixed number of consecutive Golomb codewords. -/
def golombDecodeList (m : Nat) (mode : NegativeHandling) :
    Nat → List Bool → Option (List Int × List Bool)
  | 0, s => some ([], s)
  | k + 1, s =>
      match golombDecode m mode s with
      | none => none
      | some (n, s') =>
          (golombDecodeList m mode k s').map fun p => (n :: p.1, p.2)

/-! ## Basic bit-layer lemmas -/

theorem natBits_length (v n : Nat) : (natBits v n).length = n := by
  induction n with
  | zero => rfl
  | succ n ih => simp [natBits, ih]

theorem readNBits_natBits (v : Nat) (n : Nat) (rest : List Bool) :
    readNBits n (natBits v n ++ rest) = (v % 2 ^ n, rest) := by
  induction n with
  | zero => simp [natBits, readNBits, Nat.mod_one]
  | succ n ih =>
      simp only [natBits, List.cons_append, readNBits, List.append_eq, ih,
        Prod.mk.injEq, and_true]
      have h2 : v / 2 ^ n % 2 = 0 ∨ v / 2 ^ n % 2 = 1 := by omega
      rw [Nat.mod_pow_succ]
      rcases h2 with h | h
      · simp [h]
      · simp [h]; ring

theorem readNBits_of_lt (v : Nat) (n : Nat) (rest : List Bool) (h : v < 2 ^ n) :
    readNBits n (natBits v n ++ rest) = (v, rest) := by
  rw [readNBits_natBits, Nat.mod_eq_of_lt h]

theorem readUnary_writeUnary (q : Nat) (rest : List Bool) :
    readUnary (writeUnary q ++ rest) = some (q, rest) := by
  induction q with
  | zero => simp [writeUnary, readUnary]
  | succ q ih =>
      have ih' : readUnary (List.replicate q false ++ true :: rest) = some (q, rest) := by
        simpa [writeUnary, List.append_assoc] using ih
      simp [writeUnary, List.replicate_succ, readUnary, ih']

/-- Splitting the most significant end off an MSB-first bit field: the first
`n` bits of an `(n+1)`-bit field for `v` form the `n`-bit field for `v / 2`,
and the last bit is the parity of `v`. -/
theorem natBits_succ_split (v n : Nat) :
    natBits v (n + 1) = natBits (v / 2) n ++ [decide (v % 2 = 1)] := by
  induction n with
  | zero => simp [natBits]
  | succ n ih =>
      have hdiv : v / 2 ^ (n + 1) = v / 2 / 2 ^ n := by
        rw [Nat.div_div_eq_div_mul, pow_succ, Nat.mul_comm 2 (2 ^ n),
          ← Nat.div_div_eq_div_mul, Nat.div_div_eq_div_mul]
      calc natBits v (n + 2)
          = decide (v / 2 ^ (n + 1) % 2 = 1) :: natBits v (n + 1) := rfl
        _ = decide (v / 2 / 2 ^ n % 2 = 1) ::
              (natBits (v / 2) n ++ [decide (v % 2 = 1)]) := by rw [hdiv, ih]
        _ = natBits (v / 2) (n + 1) ++ [decide (v % 2 = 1)] := rfl

/-! ## Golomb round-trip -/

theorem clog2Fuel_eq_clog : ∀ (f m : Nat), m ≤ f → clog2Fuel f m = Nat.clog 2 m := by
  intro f
  induction f with
  | zero =>
      intro m hm
      have h0 : m = 0 := by omega
      subst h0
      simp [clog2Fuel, Nat.clog_of_right_le_one]
  | succ f ih =>
      intro m hm
      by_cases h1 : m ≤ 1
      · rw [clog2Fuel, if_pos h1, Nat.clog_of_right_le_one h1]
      · have h2 : 2 ≤ m := by omega
        have h3 : (m + 1) / 2 ≤ f := by omega
        rw [clog2Fuel, if_neg h1, ih _ h3,
          Nat.clog_of_two_le (by norm_num) h2]
        norm_num

theorem golombB_eq_clog (m : Nat) : golombB m = Nat.clog 2 m :=
  clog2Fuel_eq_clog m m le_rfl

theorem golombB_pos {m : Nat} (hm : 2 ≤ m) : 1 ≤ golombB m := by
  rw [golombB_eq_clog]
  exact Nat.clog_pos (by norm_num) hm

theorem le_pow_golombB (m : Nat) : m ≤ 2 ^ golombB m := by
  rw [golombB_eq_clog]
  exact Nat.le_pow_clog (by norm_num) m

theorem pow_pred_golombB_lt {m : Nat} (hm : 2 ≤ m) : 2 ^ (golombB m - 1) < m := by
  have := Nat.pow_pred_clog_lt_self (b := 2) (by norm_num) (x := m) hm
  rw [golombB_eq_clog]
  simpa [Nat.pred_eq_sub_one] using this

theorem golombCutoff_lt_pow_pred {m : Nat} (hm : 2 ≤ m) :
    golombCutoff m < 2 ^ (golombB m - 1) := by
  have h1 : 2 ^ (golombB m - 1) < m := pow_pred_golombB_lt hm
  have h2 : 2 ^ golombB m = 2 * 2 ^ (golombB m - 1) := by
    have hb : 1 ≤ golombB m := golombB_pos hm
    calc 2 ^ golombB m = 2 ^ (golombB m - 1 + 1) := by rw [Nat.sub_add_cancel hb]
      _ = 2 * 2 ^ (golombB m - 1) := by rw [pow_succ]; ring
  have h3 : m ≤ 2 ^ golombB m := le_pow_golombB m
  simp only [golombCutoff]
  omega

theorem decodeUnsigned_encodeUnsigned {m : Nat} (hm : 1 ≤ m) (n : Nat)
    (rest : List Bool) :
    decodeUnsigned m (encodeUnsigned m n ++ rest) = some (n, rest) := by
  by_cases h1 : m = 1
  · subst h1
    simp [encodeUnsigned, decodeUnsigned, readUnary_writeUnary]
  · have hm2 : 2 ≤ m := by omega
    have hb : 1 ≤ golombB m := golombB_pos hm2
    have hcut : golombCutoff m < 2 ^ (golombB m - 1) := golombCutoff_lt_pow_pred hm2
    have hr : n % m < m := Nat.mod_lt _ (by omega)
    have hqr : n / m * m + n % m = n := by
      rw [Nat.mul_comm]; exact Nat.div_add_mod n m
    by_cases h2 : n % m < golombCutoff m
    · have h3 : n % m < 2 ^ (golombB m - 1) := lt_trans h2 hcut
      have hread : readNBits (golombB m - 1) (natBits (n % m) (golombB m - 1) ++ rest)
          = (n % m, rest) := readNBits_of_lt _ _ _ h3
      simp only [encodeUnsigned, decodeUnsigned, if_neg h1, if_pos h2,
        List.append_assoc, readUnary_writeUnary, hread, hqr]
    · have hsum : n % m + golombCutoff m < 2 ^ golombB m := by
        have h3 : m ≤ 2 ^ golombB m := le_pow_golombB m
        simp only [golombCutoff]
        omega
      have hsplit : natBits (n % m + golombCutoff m) (golombB m)
          = natBits ((n % m + golombCutoff m) / 2) (golombB m - 1)
            ++ [decide ((n % m + golombCutoff m) % 2 = 1)] := by
        have := natBits_succ_split (n % m + golombCutoff m) (golombB m - 1)
        rw [Nat.sub_add_cancel hb] at this
        exact this
      have hhalf : (n % m + golombCutoff m) / 2 < 2 ^ (golombB m - 1) := by
        have h4 : 2 ^ golombB m = 2 * 2 ^ (golombB m - 1) := by
          calc 2 ^ golombB m = 2 ^ (golombB m - 1 + 1) := by rw [Nat.sub_add_cancel hb]
            _ = 2 * 2 ^ (golombB m - 1) := by rw [pow_succ]; ring
        omega
      have hread : readNBits (golombB m - 1)
          (natBits ((n % m + golombCutoff m) / 2) (golombB m - 1)
            ++ (decide ((n % m + golombCutoff m) % 2 = 1) :: rest))
          = ((n % m + golombCutoff m) / 2, decide ((n % m + golombCutoff m) % 2 = 1) :: rest) :=
        readNBits_of_lt _ _ _ hhalf
      have hge : ¬ (n % m + golombCutoff m) / 2 < golombCutoff m := by
        have h5 : golombCutoff m ≤ (n % m + golombCutoff m) / 2 :=
          Nat.le_div_iff_mul_le (k := 2) (by norm_num) |>.mpr
            (by omega : golombCutoff m * 2 ≤ n % m + golombCutoff m)
        omega
      have hfull : 2 * ((n % m + golombCutoff m) / 2)
          + (if decide ((n % m + golombCutoff m) % 2 = 1) = true then 1 else 0)
          = n % m + golombCutoff m := by
        have hp : (n % m + golombCutoff m) % 2 = 0 ∨ (n % m + golombCutoff m) % 2 = 1 := by
          omega
        rcases hp with h | h
        · simp only [h]; simp; omega
        · simp only [h]; simp; omega
      simp only [encodeUnsigned, decodeUnsigned, if_neg h1, if_neg h2, hsplit,
        List.append_assoc, List.singleton_append, readUnary_writeUnary, hread,
        if_neg hge, hfull]
      simp only [Nat.add_sub_cancel, hqr]

theorem golombDecode_golombEncode {m : Nat} (hm : 1 ≤ m)
    (mode : NegativeHandling) (n : Int) (rest : List Bool) :
    golombDecode m mode (golombEncode m mode n ++ rest) = some (n, rest) := by
  cases mode with
  | INTERLEAVING =>
      simp only [golombEncode, golombDecode,
        decodeUnsigned_encodeUnsigned hm (interleaveMap n) rest, Option.map_some']
      by_cases h : 0 ≤ n
      · have h2 : interleaveMap n = (2 * n).toNat := by simp [interleaveMap, h]
        have h3 : ((2 * n).toNat : Int) = 2 * n := Int.toNat_of_nonneg (by omega)
        have h4 : interleaveMap n % 2 = 0 := by omega
        have h5 : ((interleaveMap n / 2 : Nat) : Int) = n := by omega
        rw [if_pos h4, h5]
      · have h2 : interleaveMap n = (-2 * n - 1).toNat := by simp [interleaveMap, h]
        have h3 : ((-2 * n - 1).toNat : Int) = -2 * n - 1 := Int.toNat_of_nonneg (by omega)
        have h4 : ¬ interleaveMap n % 2 = 0 := by omega
        have h5 : -((((interleaveMap n + 1) / 2 : Nat) : Int)) = n := by omega
        rw [if_neg h4, h5]
  | SIGN_AND_MAGNITUDE =>
      simp only [golombEncode, List.cons_append, golombDecode,
        decodeUnsigned_encodeUnsigned hm n.natAbs rest, Option.map_some']
      by_cases h : n < 0
      · have h2 : (n.natAbs : Int) = -n := by omega
        simp [h, h2]
      · have h2 : (n.natAbs : Int) = n := by omega
        simp [h, h2]

/-! ## The Golomb coder object (`golomb.h`): state and frame effect -/

/-- The mutable state of the C++ `Golomb` object: the divisor `m_m` and the
sign-mapping mode `m_neg_handling`. -/
structure GolombCoder where
  m_m : Nat
  m_neg_handling : NegativeHandling
deriving DecidableEq, Repr

/-- The `Golomb(m, neg_handling)` constructor: throws (`none`) when `m <= 0`. -/
def GolombCoder.init (m : Int) (mode : NegativeHandling) : Option GolombCoder :=
  if m ≤ 0 then none else some ⟨m.toNat, mode⟩

/-- The member `Golomb::set_m`: throws (`none`) when `m <= 0`, else updates `m_m`. -/
def GolombCoder.set_m (g : GolombCoder) (m : Int) : Option GolombCoder :=
  if m ≤ 0 then none else some { g with m_m := m.toNat }

/-- The member `Golomb::get_m`. -/
def GolombCoder.get_m (g : GolombCoder) : Nat := g.m_m

/-- A call of the non-const member `Golomb::encode`: the emitted bits together
with the state of the object after the call (the body assigns no field). -/
def GolombCoder.encodeCall (g : GolombCoder) (n : Int) : List Bool × GolombCoder :=
  (golombEncode g.m_m g.m_neg_handling n, g)

/-- A call of the non-const member `Golomb::decode`: the decoded value (or the
EOF error) together with the state of the object after the call. -/
def GolombCoder.decodeCall (g : GolombCoder) (s : List Bool) :
    Option (Int × List Bool) × GolombCoder :=
  (golombDecode g.m_m g.m_neg_handling s, g)

/-- A sequence element of `encode` / `decode` calls on a `Golomb` object. -/
inductive GolombCall
  | enc (n : Int)
  | dec (s : List Bool)

/-- Running a sequence of `encode` / `decode` calls, threading the state. -/
def GolombCoder.runCalls (g : GolombCoder) : List GolombCall → GolombCoder
  | [] => g
  | .enc n :: cs => ((g.encodeCall n).2).runCalls cs
  | .dec s :: cs => ((g.decodeCall s).2).runCalls cs

/-! ## Claim theorems about the Golomb layer -/

/-- C3: for every `m` in `[1, 2^16)` and both sign modes, `Golomb::decode`
inverts `Golomb::encode` on every signed `n` in `[-2^19, 2^19]`, and the
unsigned layer satisfies `decode_unsigned (encode_unsigned n) = n` for every
`n` in `[0, 2^20)`. -/
theorem golomb_signed_and_unsigned_roundtrip (m : Nat)
    (hm1 : 1 ≤ m) (hm2 : m < 2 ^ 16) :
    (∀ (mode : NegativeHandling) (n : Int), -2 ^ 19 ≤ n → n ≤ 2 ^ 19 →
        golombDecode m mode (golombEncode m mode n) = some (n, [])) ∧
    (∀ n : Nat, n < 2 ^ 20 →
        decodeUnsigned m (encodeUnsigned m n) = some (n, [])) := by
  constructor
  · intro mode n _ _
    simpa using golombDecode_golombEncode hm1 mode n []
  · intro n _
    simpa using decodeUnsigned_encodeUnsigned hm1 n []

theorem golomb_signed_and_unsigned_roundtrip_witness :
    golombDecode 5 .INTERLEAVING (golombEncode 5 .INTERLEAVING (-7)) = some (-7, []) :=
  (golomb_signed_and_unsigned_roundtrip 5 (by decide) (by decide)).1
    .INTERLEAVING (-7) (by decide) (by decide)

/-- C4: with `m = 4` in interleaving mode, the sequence `0, -1, 1, -2, 2`
encodes to the 16 bits `100 101 110 111 0100` and decodes back; with `m = 3`
in sign-and-magnitude mode, `-2` encodes to the 4 bits `1 1 11` and decodes
back. -/
theorem golomb_concrete_codewords :
    ([(0 : Int), -1, 1, -2, 2].map (golombEncode 4 .INTERLEAVING)).flatten
        = [true, false, false, true, false, true, true, true, false,
           true, true, true, false, true, false, false] ∧
    golombDecodeList 4 .INTERLEAVING 5
        (([(0 : Int), -1, 1, -2, 2].map (golombEncode 4 .INTERLEAVING)).flatten)
        = some ([0, -1, 1, -2, 2], []) ∧
    golombEncode 3 .SIGN_AND_MAGNITUDE (-2) = [true, true, true, true] ∧
    golombDecode 3 .SIGN_AND_MAGNITUDE (golombEncode 3 .SIGN_AND_MAGNITUDE (-2))
        = some (-2, []) := by
  refine ⟨by decide, by decide, by decide, by decide⟩

theorem runCalls_eq_self (g : GolombCoder) :
    ∀ calls : List GolombCall, g.runCalls calls = g := by
  intro calls
  induction calls generalizing g with
  | nil => rfl
  | cons c cs ih =>
      cases c with
      | enc n => exact ih _
      | dec s => exact ih _

/-- C10: `Golomb::encode` and `Golomb::decode` modify neither `m_m` nor the
sign mode: after any sequence of encode/decode calls on a coder obtained from
the constructor or from the most recent `set_m`, `get_m` still returns the
value that was established there, and the mode is unchanged. -/
theorem golomb_calls_preserve_m (g : GolombCoder) (calls : List GolombCall) :
    (g.runCalls calls).get_m = g.get_m ∧
    (g.runCalls calls).m_neg_handling = g.m_neg_handling ∧
    (∀ (m : Int) (g' : GolombCoder), g.set_m m = some g' →
        (g'.runCalls calls).get_m = m.toNat ∧
        (g'.runCalls calls).m_neg_handling = g.m_neg_handling) ∧
    (∀ (m : Int) (mode : NegativeHandling) (g0 : GolombCoder),
        GolombCoder.init m mode = some g0 →
        (g0.runCalls calls).get_m = m.toNat ∧
        (g0.runCalls calls).m_neg_handling = mode) := by
  refine ⟨by rw [runCalls_eq_self], by rw [runCalls_eq_self], ?_, ?_⟩
  · intro m g' h
    rw [runCalls_eq_self]
    simp only [GolombCoder.set_m] at h
    by_cases hm : m ≤ 0
    · simp [hm] at h
    · simp only [hm, if_false, Option.some.injEq] at h
      cases h
      exact ⟨rfl, rfl⟩
  · intro m mode g0 h
    rw [runCalls_eq_self]
    simp only [GolombCoder.init] at h
    by_cases hm : m ≤ 0
    · simp [hm] at h
    · simp only [hm, if_false, Option.some.injEq] at h
      cases h
      exact ⟨rfl, rfl⟩

theorem golomb_calls_preserve_m_witness :
    ((⟨3, .INTERLEAVING⟩ : GolombCoder).runCalls [.enc 5, .dec [true]]).get_m = 3 ∧
    ((⟨7, .SIGN_AND_MAGNITUDE⟩ : GolombCoder).runCalls [.enc 5]).get_m = (7 : Int).toNat :=
  ⟨(golomb_calls_preserve_m ⟨3, .INTERLEAVING⟩ [.enc 5, .dec [true]]).1,
   ((golomb_calls_preserve_m ⟨1, .SIGN_AND_MAGNITUDE⟩ [.enc 5]).2.2.1 7
      ⟨7, .SIGN_AND_MAGNITUDE⟩ (by decide)).1⟩

/-! ## Audio codec (`audio_codec.cpp`, `audio_codec.h`) -/

/-- The constant `AudioCodec::BLOCK_SIZE`. -/
def AUDIO_BLOCK_SIZE : Nat := 4096

/-- Fuel-driven list chunking; with `fuel >= l.length` and `n >= 1` this cuts
`l` into consecutive chunks of `n` elements (the last one possibly shorter),
the block structure of `sf_readf_short` reading `BLOCK_SIZE` frames at a
time. -/
def chunksFuel (n : Nat) : Nat → List α → List (List α)
  | _, [] => []
  | 0, l => [l]
  | f + 1, l => l.take n :: chunksFuel n f (l.drop n)

/-- The list of blocks of `n` elements of `l` (last one possibly shorter). -/
def chunkList (n : Nat) (l : List α) : List (List α) :=
  chunksFuel n l.length l

/-- The cast `static_cast<int16_t>` on a mathematical integer (two's complement wrap,
as used by `AudioCodec::decode` when pushing reconstructed samples). -/
def toInt16 (x : Int) : Int := (x + 2 ^ 15) % 2 ^ 16 - 2 ^ 15

/-- The mono residual loop of `AudioCodec::encode`: `res = l - pred_l`, then
`pred_l = l`. Returns the residuals of the frame list and the final `pred_l`. -/
def monoResiduals (pred : Int) : List Int → List Int × Int
  | [] => ([], pred)
  | l :: xs =>
      let p := monoResiduals l xs
      ((l - pred) :: p.1, p.2)

/-- The stereo residual loop of `AudioCodec::encode`: per frame `(l, r)`,
`res_l = l - pred_l`, `pred_l = l`, `pred_r = l`, `res_r = r - pred_r`;
residuals are interleaved L, R. Returns the residuals and the final
`pred_l`. -/
def stereoResiduals (pred : Int) : List (Int × Int) → List Int × Int
  | [] => ([], pred)
  | f :: fs =>
      let p := stereoResiduals f.1 fs
      ((f.1 - pred) :: (f.2 - f.1) :: p.1, p.2)

/-- The per-block encode loop of `AudioCodec::encode`, mono case: for each
block, compute the residuals, then (when adaptive) write the estimated `m` as
16 bits and re-parameterise the Golomb coder, then Golomb-encode every
residual. `chooseM` abstracts `AudioCodec::calculate_m` (whose arithmetic is
floating-point; every value it returns lies in `[1, 65535]`). -/
def encodeAudioBlocksMono (adaptive : Bool) (chooseM : List Int → Nat) :
    Nat → Int → List (List Int) → List Bool
  | _, _, [] => []
  | m, pred, blk :: blocks =>
      let p := monoResiduals pred blk
      let m' := if adaptive then chooseM p.1 else m
      (if adaptive then natBits m' 16 else [])
        ++ (p.1.map (golombEncode m' .INTERLEAVING)).flatten
        ++ encodeAudioBlocksMono adaptive chooseM m' p.2 blocks

/-- The per-block encode loop of `AudioCodec::encode`, stereo case. -/
def encodeAudioBlocksStereo (adaptive : Bool) (chooseM : List Int → Nat) :
    Nat → Int → List (List (Int × Int)) → List Bool
  | _, _, [] => []
  | m, pred, blk :: blocks =>
      let p := stereoResiduals pred blk
      let m' := if adaptive then chooseM p.1 else m
      (if adaptive then natBits m' 16 else [])
        ++ (p.1.map (golombEncode m' .INTERLEAVING)).flatten
        ++ encodeAudioBlocksStereo adaptive chooseM m' p.2 blocks

/-- The per-frame decode loop of `AudioCodec::decode`, mono case:
`res_l = golomb.decode(bs); l = res_l + pred_l; push int16(l); pred_l = l`. -/
def decodeAudioFramesMono (m : Nat) : Int → Nat → List Bool →
    Option (List Int × Int × List Bool)
  | pred, 0, s => some ([], pred, s)
  | pred, k + 1, s =>
      match golombDecode m .INTERLEAVING s with
      | none => none
      | some rs =>
          match decodeAudioFramesMono m (rs.1 + pred) k rs.2 with
          | none => none
          | some out => some (toInt16 (rs.1 + pred) :: out.1, out.2)

/-- The per-frame decode loop of `AudioCodec::decode`, stereo case: decode
`res_l`, reconstruct `l`, then `pred_r = l`, decode `res_r`, reconstruct
`r = res_r + pred_r`. -/
def decodeAudioFramesStereo (m : Nat) : Int → Nat → List Bool →
    Option (List Int × Int × List Bool)
  | pred, 0, s => some ([], pred, s)
  | pred, k + 1, s =>
      match golombDecode m .INTERLEAVING s with
      | none => none
      | some rsl =>
          match golombDecode m .INTERLEAVING rsl.2 with
          | none => none
          | some rsr =>
              match decodeAudioFramesStereo m (rsl.1 + pred) k rsr.2 with
              | none => none
              | some out =>
                  some (toInt16 (rsl.1 + pred)
                    :: toInt16 (rsr.1 + (rsl.1 + pred)) :: out.1, out.2)

/-- The block loop of `AudioCodec::decode`, mono case: while samples remain,
(when adaptive) read 16 bits of `m` (clamping `m <= 0` up to 1), then decode
`min(BLOCK_SIZE, remaining)` frames. `fuel` is the explicit termination
measure; `fuel >= remaining` suffices. -/
def decodeAudioBlocksMono (adaptive : Bool) :
    Nat → Nat → Int → Nat → List Bool → Option (List Int)
  | 0, _, _, remaining, _ => if remaining = 0 then some [] else none
  | f + 1, m, pred, remaining, s =>
      if remaining = 0 then some []
      else
        let ms := if adaptive then
            ((if (readNBits 16 s).1 = 0 then 1 else (readNBits 16 s).1),
              (readNBits 16 s).2)
          else (m, s)
        let bsz := min AUDIO_BLOCK_SIZE remaining
        match decodeAudioFramesMono ms.1 pred bsz ms.2 with
        | none => none
        | some out =>
            (decodeAudioBlocksMono adaptive f ms.1 out.2.1 (remaining - bsz)
              out.2.2).map fun rest => out.1 ++ rest

/-- The block loop of `AudioCodec::decode`, stereo case. -/
def decodeAudioBlocksStereo (adaptive : Bool) :
    Nat → Nat → Int → Nat → List Bool → Option (List Int)
  | 0, _, _, remaining, _ => if remaining = 0 then some [] else none
  | f + 1, m, pred, remaining, s =>
      if remaining = 0 then some []
      else
        let ms := if adaptive then
            ((if (readNBits 16 s).1 = 0 then 1 else (readNBits 16 s).1),
              (readNBits 16 s).2)
          else (m, s)
        let bsz := min AUDIO_BLOCK_SIZE remaining
        match decodeAudioFramesStereo ms.1 pred bsz ms.2 with
        | none => none
        | some out =>
            (decodeAudioBlocksStereo adaptive f ms.1 out.2.1 (remaining - bsz)
              out.2.2).map fun rest => out.1 ++ rest

/-- The `CodecHeader` of `audio_codec.h` (the magic, version and
bits-per-sample fields are constants and are omitted; `fixed_m` carries the
`uint16_t` truncation of the constructor's `m`). -/
structure AudioHeader where
  num_channels : Nat
  sample_rate : Nat
  total_samples : Nat
  adaptive : Bool
  fixed_m : Nat
deriving DecidableEq, Repr

/-- A 16-bit PCM input stream: mono samples or stereo frames. -/
inductive AudioInput
  | mono (xs : List Int)
  | stereo (fs : List (Int × Int))
deriving DecidableEq, Repr

def AudioInput.channels : AudioInput → Nat
  | .mono _ => 1
  | .stereo _ => 2

def AudioInput.numFrames : AudioInput → Nat
  | .mono xs => xs.length
  | .stereo fs => fs.length

/-- The interleaved sample stream of an input, as written by the decoder. -/
def AudioInput.interleaved : AudioInput → List Int
  | .mono xs => xs
  | .stereo fs => (fs.map fun f => [f.1, f.2]).flatten

/-- The error kinds of the failure-semantics design. -/
inductive CodecError
  | IoError
  | InvalidFormat
  | InvalidParameter
  | UnexpectedEndOfStream
deriving DecidableEq, Repr

instance {ε α : Type} [DecidableEq ε] [DecidableEq α] : DecidableEq (Except ε α) :=
  fun a b =>
    match a, b with
    | .error e1, .error e2 =>
        if h : e1 = e2 then isTrue (by rw [h])
        else isFalse fun hh => h (by injection hh)
    | .error _, .ok _ => isFalse fun hh => Except.noConfusion hh
    | .ok _, .error _ => isFalse fun hh => Except.noConfusion hh
    | .ok a1, .ok a2 =>
        if h : a1 = a2 then isTrue (by rw [h])
        else isFalse fun hh => h (by injection hh)

/-- The member `AudioCodec::encode` after input validation: writes the header (with
`fixed_m = (uint16_t) m_fixed_m`) and the per-block Golomb stream, starting
from `initial_m = adaptive ? 1 : m_fixed_m` and `pred_l = 0`. -/
def audioEncode (adaptive : Bool) (chooseM : List Int → Nat) (fixedM : Nat)
    (sampleRate : Nat) (input : AudioInput) : AudioHeader × List Bool :=
  ({ num_channels := input.channels, sample_rate := sampleRate,
     total_samples := input.numFrames, adaptive := adaptive,
     fixed_m := fixedM % 2 ^ 16 },
   match input with
   | .mono xs => encodeAudioBlocksMono adaptive chooseM
       (if adaptive then 1 else fixedM) 0 (chunkList AUDIO_BLOCK_SIZE xs)
   | .stereo fs => encodeAudioBlocksStereo adaptive chooseM
       (if adaptive then 1 else fixedM) 0 (chunkList AUDIO_BLOCK_SIZE fs))

/-- The member `AudioCodec::decode` from a parsed header: constructs
`Golomb(header.fixed_m, INTERLEAVING)` (which throws `InvalidParameter` when
`fixed_m = 0`), then runs the block loop; an EOF inside a codeword surfaces
as `UnexpectedEndOfStream`. -/
def audioDecode (h : AudioHeader) (s : List Bool) : Except CodecError (List Int) :=
  if h.fixed_m = 0 then .error .InvalidParameter
  else
    let r := if h.num_channels = 2
      then decodeAudioBlocksStereo h.adaptive h.total_samples h.fixed_m 0
        h.total_samples s
      else decodeAudioBlocksMono h.adaptive h.total_samples h.fixed_m 0
        h.total_samples s
    match r with
    | none => .error .UnexpectedEndOfStream
    | some out => .ok out

/-- The constant `SF_FORMAT_SUBMASK` of `sndfile.h`. -/
def SF_FORMAT_SUBMASK : Nat := 0xFFFF

/-- The constant `SF_FORMAT_PCM_16` of `sndfile.h`. -/
def SF_FORMAT_PCM_16 : Nat := 0x0002

/-- The input validation of `AudioCodec::encode` (lines 63-71): reject when
the subformat is not 16-bit PCM, reject when `channels > 2`, else accept and
proceed to write the compressed stream. -/
def audioEncodeAccepts (format channels : Nat) : Bool :=
  if (format &&& SF_FORMAT_SUBMASK) ≠ SF_FORMAT_PCM_16 then false
  else if channels > 2 then false
  else true

/-! ## Audio round-trip lemmas -/

theorem toInt16_eq_self {x : Int} (h1 : -2 ^ 15 ≤ x) (h2 : x < 2 ^ 15) :
    toInt16 x = x := by
  simp only [toInt16]
  omega

theorem decodeAudioFramesMono_encode {m : Nat} (hm : 1 ≤ m) :
    ∀ (xs : List Int) (pred : Int) (rest : List Bool),
      (∀ x ∈ xs, -2 ^ 15 ≤ x ∧ x < 2 ^ 15) →
      decodeAudioFramesMono m pred xs.length
          (((monoResiduals pred xs).1.map (golombEncode m .INTERLEAVING)).flatten
            ++ rest)
        = some (xs, (monoResiduals pred xs).2, rest) := by
  intro xs
  induction xs with
  | nil =>
      intro pred rest _
      simp [monoResiduals, decodeAudioFramesMono]
  | cons l xs ih =>
      intro pred rest hx
      have hl := hx l (by simp)
      have h16 : toInt16 l = l := toInt16_eq_self hl.1 hl.2
      have hstep : l - pred + pred = l := by ring
      simp only [monoResiduals, List.length_cons, List.map_cons,
        List.flatten_cons, List.append_assoc, decodeAudioFramesMono,
        golombDecode_golombEncode hm .INTERLEAVING (l - pred) _, hstep,
        ih l _ (fun x hxm => hx x (by simp [hxm])), h16]

theorem decodeAudioFramesStereo_encode {m : Nat} (hm : 1 ≤ m) :
    ∀ (fs : List (Int × Int)) (pred : Int) (rest : List Bool),
      (∀ f ∈ fs, (-2 ^ 15 ≤ f.1 ∧ f.1 < 2 ^ 15) ∧ (-2 ^ 15 ≤ f.2 ∧ f.2 < 2 ^ 15)) →
      decodeAudioFramesStereo m pred fs.length
          (((stereoResiduals pred fs).1.map (golombEncode m .INTERLEAVING)).flatten
            ++ rest)
        = some ((fs.map fun f => [f.1, f.2]).flatten,
            (stereoResiduals pred fs).2, rest) := by
  intro fs
  induction fs with
  | nil =>
      intro pred rest _
      simp [stereoResiduals, decodeAudioFramesStereo]
  | cons f fs ih =>
      intro pred rest hf
      have hl := hf f (by simp)
      have h16l : toInt16 f.1 = f.1 := toInt16_eq_self hl.1.1 hl.1.2
      have hstepl : f.1 - pred + pred = f.1 := by ring
      simp only [stereoResiduals, List.length_cons, List.map_cons,
        List.flatten_cons, List.append_assoc, decodeAudioFramesStereo,
        golombDecode_golombEncode hm .INTERLEAVING (f.1 - pred) _,
        golombDecode_golombEncode hm .INTERLEAVING (f.2 - f.1) _,
        hstepl,
        ih f.1 _ (fun g hgm => hf g (by simp [hgm])), h16l]
      have h2 : f.2 - f.1 + f.1 = f.2 := by ring
      rw [h2, toInt16_eq_self hl.2.1 hl.2.2]
      simp

theorem chunksFuel_fuel_eq (n : Nat) (hn : 1 ≤ n) :
    ∀ (f g : Nat) (l : List α), l.length ≤ f → l.length ≤ g →
      chunksFuel n f l = chunksFuel n g l := by
  intro f
  induction f with
  | zero =>
      intro g l hf hg
      have h0 : l = [] := by
        cases l with
        | nil => rfl
        | cons x xs => simp at hf
      subst h0
      cases g <;> rfl
  | succ f ih =>
      intro g l hf hg
      cases l with
      | nil => cases g <;> rfl
      | cons x xs =>
          cases g with
          | zero => simp at hg
          | succ g =>
              have hdf : ((x :: xs).drop n).length ≤ f := by
                simp only [List.length_drop, List.length_cons] at *
                omega
              have hdg : ((x :: xs).drop n).length ≤ g := by
                simp only [List.length_drop, List.length_cons] at *
                omega
              calc chunksFuel n (f + 1) (x :: xs)
                  = (x :: xs).take n :: chunksFuel n f ((x :: xs).drop n) := rfl
                _ = (x :: xs).take n :: chunksFuel n g ((x :: xs).drop n) := by
                    rw [ih _ _ hdf hdg]
                _ = chunksFuel n (g + 1) (x :: xs) := rfl

theorem chunksFuel_stable (n : Nat) (hn : 1 ≤ n) (f : Nat) (l : List α)
    (hl : l.length ≤ f) : chunksFuel n f l = chunkList n l :=
  chunksFuel_fuel_eq n hn f l.length l hl le_rfl

theorem chunkList_cons (n : Nat) (hn : 1 ≤ n) (l : List α) (hl : l ≠ []) :
    chunkList n l = l.take n :: chunkList n (l.drop n) := by
  cases l with
  | nil => exact absurd rfl hl
  | cons x xs =>
      have hdrop : ((x :: xs).drop n).length ≤ xs.length := by
        simp only [List.length_drop, List.length_cons]
        omega
      calc chunkList n (x :: xs)
          = (x :: xs).take n :: chunksFuel n xs.length ((x :: xs).drop n) := rfl
        _ = (x :: xs).take n :: chunkList n ((x :: xs).drop n) := by
            rw [chunksFuel_stable n hn _ _ hdrop]

/-- In adaptive mode the initial `m` of the decoder's block loop is dead: it
is overwritten by the 16-bit field read at the start of every block. -/
theorem decodeAudioBlocksMono_m_irrelevant (fuel : Nat) (m m' : Nat) (pred : Int)
    (remaining : Nat) (s : List Bool) :
    decodeAudioBlocksMono true fuel m pred remaining s
      = decodeAudioBlocksMono true fuel m' pred remaining s := by
  cases fuel with
  | zero => rfl
  | succ f => simp [decodeAudioBlocksMono]

theorem decodeAudioBlocksStereo_m_irrelevant (fuel : Nat) (m m' : Nat) (pred : Int)
    (remaining : Nat) (s : List Bool) :
    decodeAudioBlocksStereo true fuel m pred remaining s
      = decodeAudioBlocksStereo true fuel m' pred remaining s := by
  cases fuel with
  | zero => rfl
  | succ f => simp [decodeAudioBlocksStereo]

/-- In adaptive mode the initial `m` of the encoder's block loop is dead. -/
theorem encodeAudioBlocksMono_m_irrelevant (chooseM : List Int → Nat)
    (m m' : Nat) (pred : Int) (blocks : List (List Int)) :
    encodeAudioBlocksMono true chooseM m pred blocks
      = encodeAudioBlocksMono true chooseM m' pred blocks := by
  cases blocks with
  | nil => rfl
  | cons b bs => simp [encodeAudioBlocksMono]

theorem encodeAudioBlocksStereo_m_irrelevant (chooseM : List Int → Nat)
    (m m' : Nat) (pred : Int) (blocks : List (List (Int × Int))) :
    encodeAudioBlocksStereo true chooseM m pred blocks
      = encodeAudioBlocksStereo true chooseM m' pred blocks := by
  cases blocks with
  | nil => rfl
  | cons b bs => simp [encodeAudioBlocksStereo]

theorem decodeAudioBlocksMono_encode (adaptive : Bool) (chooseM : List Int → Nat)
    (hM : ∀ rs, 1 ≤ chooseM rs ∧ chooseM rs < 2 ^ 16) :
    ∀ (fuel : Nat) (xs : List Int) (m : Nat) (pred : Int) (rest : List Bool),
      xs.length ≤ fuel → 1 ≤ m →
      (∀ x ∈ xs, -2 ^ 15 ≤ x ∧ x < 2 ^ 15) →
      decodeAudioBlocksMono adaptive fuel m pred xs.length
          (encodeAudioBlocksMono adaptive chooseM m pred
            (chunkList AUDIO_BLOCK_SIZE xs) ++ rest)
        = some xs := by
  intro fuel
  induction fuel with
  | zero =>
      intro xs m pred rest hf hm hx
      have h0 : xs = [] := List.length_eq_zero.mp (by omega)
      subst h0
      simp [chunkList, chunksFuel, encodeAudioBlocksMono, decodeAudioBlocksMono]
  | succ f ih =>
      intro xs m pred rest hf hm hx
      cases xs with
      | nil =>
          simp [chunkList, chunksFuel, encodeAudioBlocksMono, decodeAudioBlocksMono]
      | cons x xs' =>
          rw [chunkList_cons AUDIO_BLOCK_SIZE (by norm_num [AUDIO_BLOCK_SIZE]) _
            (by simp)]
          have hxblk : ∀ y ∈ (x :: xs').take AUDIO_BLOCK_SIZE,
              -2 ^ 15 ≤ y ∧ y < 2 ^ 15 :=
            fun y hy => hx y (List.take_subset _ _ hy)
          have hxdrop : ∀ y ∈ (x :: xs').drop AUDIO_BLOCK_SIZE,
              -2 ^ 15 ≤ y ∧ y < 2 ^ 15 :=
            fun y hy => hx y (List.drop_subset _ _ hy)
          have hmin : min AUDIO_BLOCK_SIZE (x :: xs').length
              = ((x :: xs').take AUDIO_BLOCK_SIZE).length := by
            simp [List.length_take]
          have hflen : ((x :: xs').drop AUDIO_BLOCK_SIZE).length ≤ f := by
            have hbs : 1 ≤ AUDIO_BLOCK_SIZE := by norm_num [AUDIO_BLOCK_SIZE]
            simp only [List.length_drop, List.length_cons]
            simp only [List.length_cons] at hf
            omega
          have hrem : (x :: xs').length - ((x :: xs').take AUDIO_BLOCK_SIZE).length
              = ((x :: xs').drop AUDIO_BLOCK_SIZE).length := by
            simp only [List.length_take, List.length_drop, List.length_cons]
            omega
          have hne0 : ¬ ((x :: xs').length = 0) := by simp
          cases adaptive with
          | false =>
              have hframes := decodeAudioFramesMono_encode hm
                ((x :: xs').take AUDIO_BLOCK_SIZE) pred
                (encodeAudioBlocksMono false chooseM m
                  (monoResiduals pred ((x :: xs').take AUDIO_BLOCK_SIZE)).2
                  (chunkList AUDIO_BLOCK_SIZE ((x :: xs').drop AUDIO_BLOCK_SIZE))
                  ++ rest)
                hxblk
              have hrec := ih ((x :: xs').drop AUDIO_BLOCK_SIZE) m
                (monoResiduals pred ((x :: xs').take AUDIO_BLOCK_SIZE)).2 rest
                hflen hm hxdrop
              simp only [encodeAudioBlocksMono, Bool.false_eq_true, if_false,
                List.nil_append, List.append_assoc, decodeAudioBlocksMono,
                hne0, hmin, hframes, hrem, hrec, Option.map_some']
              rw [List.take_append_drop]
          | true =>
              have hm' := hM (monoResiduals pred ((x :: xs').take AUDIO_BLOCK_SIZE)).1
              have hm'1 : 1 ≤ chooseM (monoResiduals pred
                  ((x :: xs').take AUDIO_BLOCK_SIZE)).1 := hm'.1
              have hm'2 : chooseM (monoResiduals pred
                  ((x :: xs').take AUDIO_BLOCK_SIZE)).1 < 2 ^ 16 := hm'.2
              have hread := readNBits_of_lt
                (chooseM (monoResiduals pred ((x :: xs').take AUDIO_BLOCK_SIZE)).1) 16
                (((monoResiduals pred ((x :: xs').take AUDIO_BLOCK_SIZE)).1.map
                    (golombEncode (chooseM (monoResiduals pred
                      ((x :: xs').take AUDIO_BLOCK_SIZE)).1) .INTERLEAVING)).flatten
                  ++ (encodeAudioBlocksMono true chooseM
                    (chooseM (monoResiduals pred ((x :: xs').take AUDIO_BLOCK_SIZE)).1)
                    (monoResiduals pred ((x :: xs').take AUDIO_BLOCK_SIZE)).2
                    (chunkList AUDIO_BLOCK_SIZE ((x :: xs').drop AUDIO_BLOCK_SIZE))
                    ++ rest))
                hm'2
              have hclamp : ¬ (chooseM (monoResiduals pred
                  ((x :: xs').take AUDIO_BLOCK_SIZE)).1 = 0) := by omega
              have hframes := decodeAudioFramesMono_encode hm'1
                ((x :: xs').take AUDIO_BLOCK_SIZE) pred
                (encodeAudioBlocksMono true chooseM
                  (chooseM (monoResiduals pred ((x :: xs').take AUDIO_BLOCK_SIZE)).1)
                  (monoResiduals pred ((x :: xs').take AUDIO_BLOCK_SIZE)).2
                  (chunkList AUDIO_BLOCK_SIZE ((x :: xs').drop AUDIO_BLOCK_SIZE))
                  ++ rest)
                hxblk
              have hrec := ih ((x :: xs').drop AUDIO_BLOCK_SIZE)
                (chooseM (monoResiduals pred ((x :: xs').take AUDIO_BLOCK_SIZE)).1)
                (monoResiduals pred ((x :: xs').take AUDIO_BLOCK_SIZE)).2 rest
                hflen hm'1 hxdrop
              simp only [encodeAudioBlocksMono, if_true, List.append_assoc,
                decodeAudioBlocksMono, hne0, hread, hclamp, if_false, hmin,
                hframes, hrem, hrec, Option.map_some']
              rw [List.take_append_drop]

theorem decodeAudioBlocksStereo_encode (adaptive : Bool) (chooseM : List Int → Nat)
    (hM : ∀ rs, 1 ≤ chooseM rs ∧ chooseM rs < 2 ^ 16) :
    ∀ (fuel : Nat) (fs : List (Int × Int)) (m : Nat) (pred : Int) (rest : List Bool),
      fs.length ≤ fuel → 1 ≤ m →
      (∀ f ∈ fs, (-2 ^ 15 ≤ f.1 ∧ f.1 < 2 ^ 15) ∧ (-2 ^ 15 ≤ f.2 ∧ f.2 < 2 ^ 15)) →
      decodeAudioBlocksStereo adaptive fuel m pred fs.length
          (encodeAudioBlocksStereo adaptive chooseM m pred
            (chunkList AUDIO_BLOCK_SIZE fs) ++ rest)
        = some ((fs.map fun f => [f.1, f.2]).flatten) := by
  intro fuel
  induction fuel with
  | zero =>
      intro fs m pred rest hf hm hx
      have h0 : fs = [] := List.length_eq_zero.mp (by omega)
      subst h0
      simp [chunkList, chunksFuel, encodeAudioBlocksStereo, decodeAudioBlocksStereo]
  | succ f ih =>
      intro fs m pred rest hf hm hx
      cases fs with
      | nil =>
          simp [chunkList, chunksFuel, encodeAudioBlocksStereo, decodeAudioBlocksStereo]
      | cons x fs' =>
          rw [chunkList_cons AUDIO_BLOCK_SIZE (by norm_num [AUDIO_BLOCK_SIZE]) _
            (by simp)]
          have hxblk : ∀ y ∈ (x :: fs').take AUDIO_BLOCK_SIZE,
              (-2 ^ 15 ≤ y.1 ∧ y.1 < 2 ^ 15) ∧ (-2 ^ 15 ≤ y.2 ∧ y.2 < 2 ^ 15) :=
            fun y hy => hx y (List.take_subset _ _ hy)
          have hxdrop : ∀ y ∈ (x :: fs').drop AUDIO_BLOCK_SIZE,
              (-2 ^ 15 ≤ y.1 ∧ y.1 < 2 ^ 15) ∧ (-2 ^ 15 ≤ y.2 ∧ y.2 < 2 ^ 15) :=
            fun y hy => hx y (List.drop_subset _ _ hy)
          have hmin : min AUDIO_BLOCK_SIZE (x :: fs').length
              = ((x :: fs').take AUDIO_BLOCK_SIZE).length := by
            simp [List.length_take]
          have hflen : ((x :: fs').drop AUDIO_BLOCK_SIZE).length ≤ f := by
            have hbs : 1 ≤ AUDIO_BLOCK_SIZE := by norm_num [AUDIO_BLOCK_SIZE]
            simp only [List.length_drop, List.length_cons]
            simp only [List.length_cons] at hf
            omega
          have hrem : (x :: fs').length - ((x :: fs').take AUDIO_BLOCK_SIZE).length
              = ((x :: fs').drop AUDIO_BLOCK_SIZE).length := by
            simp only [List.length_take, List.length_drop, List.length_cons]
            omega
          have hne0 : ¬ ((x :: fs').length = 0) := by simp
          cases adaptive with
          | false =>
              have hframes := decodeAudioFramesStereo_encode hm
                ((x :: fs').take AUDIO_BLOCK_SIZE) pred
                (encodeAudioBlocksStereo false chooseM m
                  (stereoResiduals pred ((x :: fs').take AUDIO_BLOCK_SIZE)).2
                  (chunkList AUDIO_BLOCK_SIZE ((x :: fs').drop AUDIO_BLOCK_SIZE))
                  ++ rest)
                hxblk
              have hrec := ih ((x :: fs').drop AUDIO_BLOCK_SIZE) m
                (stereoResiduals pred ((x :: fs').take AUDIO_BLOCK_SIZE)).2 rest
                hflen hm hxdrop
              simp only [encodeAudioBlocksStereo, Bool.false_eq_true, if_false,
                List.nil_append, List.append_assoc, decodeAudioBlocksStereo,
                hne0, hmin, hframes, hrem, hrec, Option.map_some']
              rw [← List.flatten_append, ← List.map_append, List.take_append_drop]
          | true =>
              have hm' := hM (stereoResiduals pred ((x :: fs').take AUDIO_BLOCK_SIZE)).1
              have hm'1 : 1 ≤ chooseM (stereoResiduals pred
                  ((x :: fs').take AUDIO_BLOCK_SIZE)).1 := hm'.1
              have hm'2 : chooseM (stereoResiduals pred
                  ((x :: fs').take AUDIO_BLOCK_SIZE)).1 < 2 ^ 16 := hm'.2
              have hread := readNBits_of_lt
                (chooseM (stereoResiduals pred ((x :: fs').take AUDIO_BLOCK_SIZE)).1) 16
                (((stereoResiduals pred ((x :: fs').take AUDIO_BLOCK_SIZE)).1.map
                    (golombEncode (chooseM (stereoResiduals pred
                      ((x :: fs').take AUDIO_BLOCK_SIZE)).1) .INTERLEAVING)).flatten
                  ++ (encodeAudioBlocksStereo true chooseM
                    (chooseM (stereoResiduals pred ((x :: fs').take AUDIO_BLOCK_SIZE)).1)
                    (stereoResiduals pred ((x :: fs').take AUDIO_BLOCK_SIZE)).2
                    (chunkList AUDIO_BLOCK_SIZE ((x :: fs').drop AUDIO_BLOCK_SIZE))
                    ++ rest))
                hm'2
              have hclamp : ¬ (chooseM (stereoResiduals pred
                  ((x :: fs').take AUDIO_BLOCK_SIZE)).1 = 0) := by omega
              have hframes := decodeAudioFramesStereo_encode hm'1
                ((x :: fs').take AUDIO_BLOCK_SIZE) pred
                (encodeAudioBlocksStereo true chooseM
                  (chooseM (stereoResiduals pred ((x :: fs').take AUDIO_BLOCK_SIZE)).1)
                  (stereoResiduals pred ((x :: fs').take AUDIO_BLOCK_SIZE)).2
                  (chunkList AUDIO_BLOCK_SIZE ((x :: fs').drop AUDIO_BLOCK_SIZE))
                  ++ rest)
                hxblk
              have hrec := ih ((x :: fs').drop AUDIO_BLOCK_SIZE)
                (chooseM (stereoResiduals pred ((x :: fs').take AUDIO_BLOCK_SIZE)).1)
                (stereoResiduals pred ((x :: fs').take AUDIO_BLOCK_SIZE)).2 rest
                hflen hm'1 hxdrop
              simp only [encodeAudioBlocksStereo, if_true, List.append_assoc,
                decodeAudioBlocksStereo, hne0, hread, hclamp, if_false, hmin,
                hframes, hrem, hrec, Option.map_some']
              rw [← List.flatten_append, ← List.map_append, List.take_append_drop]

/-- C1 (amended): for every 16-bit PCM mono or stereo input of any length
(including lengths 0, 1, 4095, 4096, 4097 and any other), encode followed by
decode reproduces every sample bit-exactly — in fixed-m mode for every
`1 <= m <= 65535`, and in adaptive mode whenever the constructor's `m`
parameter is not a multiple of `2^16` (so that the `uint16_t` header field
`fixed_m` is nonzero); trailing padding bits after the stream are ignored.
The claim as stated (every fixed `m >= 1`) fails at `m = 65536`: see the
counterexample. `chooseM` abstracts `calculate_m`, whose results always lie
in `[1, 65535]`. -/
theorem audio_roundtrip (input : AudioInput) (adaptive : Bool)
    (chooseM : List Int → Nat) (fixedM sampleRate : Nat) (extra : List Bool)
    (hM : ∀ rs, 1 ≤ chooseM rs ∧ chooseM rs < 2 ^ 16)
    (hfm : if adaptive then fixedM % 2 ^ 16 ≠ 0 else 1 ≤ fixedM ∧ fixedM < 2 ^ 16)
    (hin : ∀ x ∈ input.interleaved, -2 ^ 15 ≤ x ∧ x < 2 ^ 15) :
    audioDecode (audioEncode adaptive chooseM fixedM sampleRate input).1
        ((audioEncode adaptive chooseM fixedM sampleRate input).2 ++ extra)
      = .ok input.interleaved := by
  cases input with
  | mono xs =>
      cases adaptive with
      | false =>
          have hfm' : 1 ≤ fixedM ∧ fixedM < 2 ^ 16 := by simpa using hfm
          have hmod : fixedM % 2 ^ 16 = fixedM := Nat.mod_eq_of_lt hfm'.2
          have hfm0 : ¬ (fixedM % 2 ^ 16 = 0) := by omega
          have hfmne : ¬ (fixedM = 0) := by omega
          have hmain := decodeAudioBlocksMono_encode false chooseM hM xs.length xs
            fixedM 0 extra le_rfl hfm'.1 (by simpa [AudioInput.interleaved] using hin)
          simp only [audioEncode, audioDecode, AudioInput.channels,
            AudioInput.numFrames, AudioInput.interleaved, hfm0, hfmne, if_false,
            Bool.false_eq_true, hmod, hmain]
          norm_num
      | true =>
          have hfm0 : ¬ (fixedM % 2 ^ 16 = 0) := by simpa using hfm
          have hfm1 : 1 ≤ fixedM % 2 ^ 16 := by omega
          have hmain := decodeAudioBlocksMono_encode true chooseM hM xs.length xs
            1 0 extra le_rfl le_rfl (by simpa [AudioInput.interleaved] using hin)
          simp only [audioEncode, audioDecode, AudioInput.channels,
            AudioInput.numFrames, AudioInput.interleaved, hfm0, if_false, if_true,
            decodeAudioBlocksMono_m_irrelevant xs.length (fixedM % 2 ^ 16) 1,
            hmain]
          norm_num
  | stereo fs =>
      have hcomp : ∀ f ∈ fs,
          (-2 ^ 15 ≤ f.1 ∧ f.1 < 2 ^ 15) ∧ (-2 ^ 15 ≤ f.2 ∧ f.2 < 2 ^ 15) := by
        intro f hf
        refine ⟨hin f.1 ?_, hin f.2 ?_⟩
        · exact List.mem_flatten.mpr ⟨[f.1, f.2], List.mem_map_of_mem _ hf, by simp⟩
        · exact List.mem_flatten.mpr ⟨[f.1, f.2], List.mem_map_of_mem _ hf, by simp⟩
      cases adaptive with
      | false =>
          have hfm' : 1 ≤ fixedM ∧ fixedM < 2 ^ 16 := by simpa using hfm
          have hmod : fixedM % 2 ^ 16 = fixedM := Nat.mod_eq_of_lt hfm'.2
          have hfm0 : ¬ (fixedM % 2 ^ 16 = 0) := by omega
          have hfmne : ¬ (fixedM = 0) := by omega
          have hmain := decodeAudioBlocksStereo_encode false chooseM hM fs.length fs
            fixedM 0 extra le_rfl hfm'.1 hcomp
          simp only [audioEncode, audioDecode, AudioInput.channels,
            AudioInput.numFrames, AudioInput.interleaved, hfm0, hfmne, if_false,
            if_true, Bool.false_eq_true, hmod, hmain]
      | true =>
          have hfm0 : ¬ (fixedM % 2 ^ 16 = 0) := by simpa using hfm
          have hmain := decodeAudioBlocksStereo_encode true chooseM hM fs.length fs
            1 0 extra le_rfl le_rfl hcomp
          simp only [audioEncode, audioDecode, AudioInput.channels,
            AudioInput.numFrames, AudioInput.interleaved, hfm0, if_false, if_true,
            decodeAudioBlocksStereo_m_irrelevant fs.length (fixedM % 2 ^ 16) 1,
            hmain]

theorem audio_roundtrip_witness :
    audioDecode (audioEncode false (fun _ => 1) 2 44100 (.mono [5, -3])).1
        ((audioEncode false (fun _ => 1) 2 44100 (.mono [5, -3])).2 ++ [])
      = .ok ((AudioInput.mono [5, -3]).interleaved) :=
  audio_roundtrip (.mono [5, -3]) false (fun _ => 1) 2 44100 []
    (fun _ => ⟨le_rfl, by norm_num⟩) (by decide) (by decide)

/-- C1 counterexample: the claim quantifies over every fixed `m >= 1`, but at
`m = 65536` the mono input `[12345]` does not round-trip: the header stores
`(uint16_t) 65536 = 0`, and the decoder's `Golomb` constructor throws
`InvalidParameter` instead of reproducing the samples. -/
theorem audio_roundtrip_counterexample :
    audioDecode (audioEncode false (fun _ => 1) 65536 44100 (.mono [12345])).1
        (audioEncode false (fun _ => 1) 65536 44100 (.mono [12345])).2
      ≠ .ok ((AudioInput.mono [12345]).interleaved) ∧
    audioDecode (audioEncode false (fun _ => 1) 65536 44100 (.mono [12345])).1
        (audioEncode false (fun _ => 1) 65536 44100 (.mono [12345])).2
      = .error .InvalidParameter ∧
    1 ≤ 65536 := by
  refine ⟨by decide, by decide, by norm_num⟩

/-- C9 (amended): for adaptive streams whose header `fixed_m` field is
nonzero, the outcome of `AudioCodec::decode` — success or failure, and every
reconstructed sample — is independent of `fixed_m`: the initial Golomb
parameter is overwritten by the 16-bit field read at the start of every
block. The claim as stated fails at `fixed_m = 0`, which the decoder's
`Golomb` constructor rejects even in adaptive mode: see the counterexample. -/
theorem audio_decode_adaptive_fixed_m_independent
    (ch sr ts m1 m2 : Nat) (s : List Bool) (h1 : m1 ≠ 0) (h2 : m2 ≠ 0) :
    audioDecode ⟨ch, sr, ts, true, m1⟩ s = audioDecode ⟨ch, sr, ts, true, m2⟩ s := by
  have hm1 : ¬ (m1 = 0) := h1
  have hm2 : ¬ (m2 = 0) := h2
  by_cases hch : ch = 2
  · simp only [audioDecode, hm1, hm2, if_false, hch, if_true,
      decodeAudioBlocksStereo_m_irrelevant ts m1 m2]
  · simp only [audioDecode, hm1, hm2, hch, if_false,
      decodeAudioBlocksMono_m_irrelevant ts m1 m2]

theorem audio_decode_adaptive_fixed_m_independent_witness :
    audioDecode ⟨1, 44100, 0, true, 3⟩ [] = audioDecode ⟨1, 44100, 0, true, 9⟩ [] :=
  audio_decode_adaptive_fixed_m_independent 1 44100 0 3 9 [] (by decide) (by decide)

/-- C9 counterexample: two adaptive headers identical except for `fixed_m`
(`0` versus `1`) give different decode outcomes on the empty stream: the
first is rejected with `InvalidParameter` by the Golomb constructor, the
second succeeds with no samples. -/
theorem audio_decode_adaptive_fixed_m_counterexample :
    audioDecode ⟨1, 44100, 0, true, 0⟩ [] = .error .InvalidParameter ∧
    audioDecode ⟨1, 44100, 0, true, 1⟩ [] = .ok [] ∧
    audioDecode ⟨1, 44100, 0, true, 0⟩ [] ≠ audioDecode ⟨1, 44100, 0, true, 1⟩ [] := by
  refine ⟨by decide, by decide, by decide⟩

/-- The stereo residual sequence as the spec words it: at frame `t` the left
residual is `x_t^L - x_(t-1)^L` (with `x_(-1)^L = 0`) and the right residual
is the cross-channel difference `x_t^R - x_t^L`, interleaved L, R. -/
def stereoSpecResiduals (fs : List (Int × Int)) : List Int :=
  ((List.range fs.length).map fun t =>
    [(fs.getD t (0, 0)).1 - (if t = 0 then 0 else (fs.getD (t - 1) (0, 0)).1),
     (fs.getD t (0, 0)).2 - (fs.getD t (0, 0)).1]).flatten

theorem stereoResiduals_eq_spec_aux :
    ∀ (fs : List (Int × Int)) (prev : Int),
      (stereoResiduals prev fs).1
        = ((List.range fs.length).map fun t =>
            [(fs.getD t (0, 0)).1
                - (if t = 0 then prev else (fs.getD (t - 1) (0, 0)).1),
             (fs.getD t (0, 0)).2 - (fs.getD t (0, 0)).1]).flatten := by
  intro fs
  induction fs with
  | nil => intro prev; rfl
  | cons f fs ih =>
      intro prev
      simp only [stereoResiduals, List.length_cons, List.range_succ_eq_map,
        List.map_cons, List.flatten_cons, List.map_map]
      rw [ih f.1]
      have htail : (List.range fs.length).map
            ((fun t => [((f :: fs).getD t (0, 0)).1
                - (if t = 0 then prev else ((f :: fs).getD (t - 1) (0, 0)).1),
              ((f :: fs).getD t (0, 0)).2 - ((f :: fs).getD t (0, 0)).1])
              ∘ Nat.succ)
          = (List.range fs.length).map fun t =>
              [(fs.getD t (0, 0)).1
                  - (if t = 0 then f.1 else (fs.getD (t - 1) (0, 0)).1),
               (fs.getD t (0, 0)).2 - (fs.getD t (0, 0)).1] := by
        refine List.map_congr_left fun t _ => ?_
        cases t with
        | zero => simp
        | succ t' => simp
      simp only [Function.comp] at htail
      rw [htail]
      simp

/-- C5: the stereo encoder emits residuals interleaved L, R, L, R, ... where
the left residual at frame `t` is `x_t^L - x_(t-1)^L` (`x_(-1)^L = 0`) and
the right residual is `x_t^R - x_t^L`; on the two frames
`(1000, 1005), (1002, 1007)` the residual sequence is `1000, 5, 2, 5` and
decoding reproduces the input. -/
theorem audio_stereo_cross_channel :
    (∀ fs : List (Int × Int), (stereoResiduals 0 fs).1 = stereoSpecResiduals fs) ∧
    (stereoResiduals 0 [(1000, 1005), (1002, 1007)]).1 = [1000, 5, 2, 5] ∧
    audioDecode
        (audioEncode false (fun _ => 1) 1024 44100
          (.stereo [(1000, 1005), (1002, 1007)])).1
        (audioEncode false (fun _ => 1) 1024 44100
          (.stereo [(1000, 1005), (1002, 1007)])).2
      = .ok [1000, 1005, 1002, 1007] := by
  refine ⟨fun fs => stereoResiduals_eq_spec_aux fs 0, by decide, by decide⟩

/-- C8 (amended): `AudioCodec::encode`'s input validation rejects exactly the
inputs whose subformat is not 16-bit PCM or whose channel count exceeds 2
(rejection happens before any output is created); a channel count of 0 —
outside {1, 2} — is accepted by the check, refuting the claim as stated. -/
theorem audio_encode_validation (format channels : Nat) :
    audioEncodeAccepts format channels = false
      ↔ (format &&& SF_FORMAT_SUBMASK ≠ SF_FORMAT_PCM_16 ∨ 2 < channels) := by
  by_cases h : format &&& SF_FORMAT_SUBMASK = SF_FORMAT_PCM_16
  · by_cases hc : 2 < channels
    · simp [audioEncodeAccepts, h, hc]
    · have hc' : ¬ (channels > 2) := hc
      simp [audioEncodeAccepts, h, hc']
  · simp [audioEncodeAccepts, h]

/-- C8 counterexample: a 16-bit PCM WAV with channel count 0 (which is
neither 1 nor 2) passes the validation, so the claim that every channel
count outside {1, 2} is rejected is false. -/
theorem audio_encode_validation_counterexample :
    audioEncodeAccepts 0x010002 0 = true ∧ (0 : Nat) ≠ 1 ∧ (0 : Nat) ≠ 2 := by
  refine ⟨by decide, by decide, by decide⟩

/-! ## Image codec (`image_codec.cpp`, `image_codec.h`) -/

/-- The constant `ImageCodec::BLOCK_SIZE_Y`. -/
def IMAGE_BLOCK_SIZE_Y : Nat := 64

/-- The member `ImageCodec::get_pixel`: negative coordinates read as 0; in-range
coordinates read the 8-bit pixel. The image is its list of rows. -/
def get_pixel (img : List (List Nat)) (r c : Int) : Int :=
  if r < 0 ∨ c < 0 then 0
  else ((img.getD r.toNat []).getD c.toNat 0 : Nat)

/-- The member `ImageCodec::predict`, the JPEG-LS MED predictor. -/
def predict (A B C : Int) : Int :=
  if C ≥ max A B then min A B
  else if C ≤ min A B then max A B
  else A + B - C

/-- The residual of pixel `(r, c)` as computed by the raster loop of
`ImageCodec::encode`: `X - predict(A, B, C)` with `A = x(r, c-1)`,
`B = x(r-1, c)`, `C = x(r-1, c-1)`. -/
def residualAt (img : List (List Nat)) (r c : Nat) : Int :=
  let A := get_pixel img r ((c : Int) - 1)
  let B := get_pixel img ((r : Int) - 1) c
  let C := get_pixel img ((r : Int) - 1) ((c : Int) - 1)
  (((img.getD r []).getD c 0 : Nat) : Int) - predict A B C

/-- The residuals of row `r` in raster order. -/
def rowResiduals (img : List (List Nat)) (W r : Nat) : List Int :=
  (List.range W).map fun c => residualAt img r c

/-- The per-row residual lists of the whole image, in raster order; the
encoder groups them into `blocks_residuals[r / 64]`. -/
def imageRowsResiduals (img : List (List Nat)) (W : Nat) : List (List Int) :=
  (List.range img.length).map fun r => rowResiduals img W r

/-- The band encode loop of `ImageCodec::encode`: for each 64-row band (a
flattened residual list), when adaptive write the estimated `m` as 16 bits
and re-parameterise the coder, then Golomb-encode the band's residuals. -/
def encodeImageBands (adaptive : Bool) (chooseM : List Int → Nat) :
    Nat → List (List Int) → List Bool
  | _, [] => []
  | m, band :: bands =>
      let m' := if adaptive then chooseM band else m
      (if adaptive then natBits m' 16 else [])
        ++ (band.map (golombEncode m' .INTERLEAVING)).flatten
        ++ encodeImageBands adaptive chooseM m' bands

/-- The `CodecHeader` of `image_codec.h` (magic and version omitted as
constants; `fixed_m` carries the `uint16_t` truncation of the constructor's
`m`). -/
structure ImageHeader where
  width : Nat
  height : Nat
  adaptive : Bool
  fixed_m : Nat
deriving DecidableEq, Repr

/-- The member `ImageCodec::encode` after input validation: header plus the Golomb
stream of the 64-row bands, starting from `initial_m = adaptive ? 1 : m`.
`chooseM` abstracts `ImageCodec::calculate_m` (floating-point; its results
always lie in `[1, 65535]`). -/
def imageEncode (adaptive : Bool) (chooseM : List Int → Nat) (fixedM : Nat)
    (img : List (List Nat)) (W : Nat) : ImageHeader × List Bool :=
  ({ width := W, height := img.length, adaptive := adaptive,
     fixed_m := fixedM % 2 ^ 16 },
   encodeImageBands adaptive chooseM (if adaptive then 1 else fixedM)
     ((chunkList IMAGE_BLOCK_SIZE_Y (imageRowsResiduals img W)).map List.flatten))

/-- One row of `ImageCodec::decode`: per pixel, compute the MED prediction
from the already-decoded neighbours (`prevRow` is the fully decoded row
above, `[]` on the first row; `cur` is the decoded prefix of the current
row), Golomb-decode the residual, reconstruct `X = residual + P` and clamp
to `[0, 255]`. -/
def decodeImageRow (m : Nat) (prevRow : List Nat) :
    List Nat → Nat → List Bool → Option (List Nat × List Bool)
  | cur, 0, s => some (cur, s)
  | cur, n + 1, s =>
      let c := cur.length
      let A : Int := if c = 0 then 0 else (cur.getD (c - 1) 0 : Nat)
      let B : Int := (prevRow.getD c 0 : Nat)
      let C : Int := if c = 0 then 0 else (prevRow.getD (c - 1) 0 : Nat)
      let P := predict A B C
      match golombDecode m .INTERLEAVING s with
      | none => none
      | some rs =>
          let X := rs.1 + P
          let X' := if X < 0 then 0 else if X > 255 then 255 else X
          decodeImageRow m prevRow (cur ++ [X'.toNat]) n rs.2

/-- The row loop of `ImageCodec::decode`: at every row index with
`r % 64 == 0`, when adaptive, read 16 bits of `m` (clamping `m <= 0` up to
1); then decode the row's `width` pixels. `fuel >= height - r` suffices. -/
def decodeImageRows (adaptive : Bool) (W H : Nat) :
    Nat → Nat → Nat → List Nat → List Bool → Option (List (List Nat) × List Bool)
  | 0, _, r, _, s => if H ≤ r then some ([], s) else none
  | f + 1, m, r, prevRow, s =>
      if H ≤ r then some ([], s)
      else
        let ms := if adaptive && decide (r % IMAGE_BLOCK_SIZE_Y = 0) then
            ((if (readNBits 16 s).1 = 0 then 1 else (readNBits 16 s).1),
              (readNBits 16 s).2)
          else (m, s)
        match decodeImageRow ms.1 prevRow [] W ms.2 with
        | none => none
        | some rowS =>
            match decodeImageRows adaptive W H f ms.1 (r + 1) rowS.1 rowS.2 with
            | none => none
            | some rest => some (rowS.1 :: rest.1, rest.2)

/-- The member `ImageCodec::decode` from a parsed header: constructs
`Golomb(adaptive ? 1 : fixed_m, INTERLEAVING)` (which throws
`InvalidParameter` when that is 0), then runs the row loop. -/
def imageDecode (h : ImageHeader) (s : List Bool) :
    Except CodecError (List (List Nat)) :=
  if (if h.adaptive then 1 else h.fixed_m) = 0 then .error .InvalidParameter
  else
    match decodeImageRows h.adaptive h.width h.height h.height
        (if h.adaptive then 1 else h.fixed_m) 0 [] s with
    | none => .error .UnexpectedEndOfStream
    | some out => .ok out.1

/-- The row above row `r` as the decoder has reconstructed it: `[]` when
`r = 0` (all its reads are out of bounds), else row `r - 1`. -/
def prevRowOf (img : List (List Nat)) (r : Nat) : List Nat :=
  if r = 0 then [] else img.getD (r - 1) []

/-! ## Image round-trip lemmas -/

theorem getD_take_eq (l : List Nat) (c i : Nat) (hi : i < c) (hc : c ≤ l.length) :
    (l.take c).getD i 0 = l.getD i 0 := by
  have h1 : i < (l.take c).length := by
    simp only [List.length_take]
    omega
  have h2 : i < l.length := by omega
  rw [List.getD_eq_getElem _ _ h1, List.getD_eq_getElem _ _ h2, List.getElem_take]

theorem take_concat_getD (l : List Nat) (c : Nat) (hc : c < l.length) :
    l.take c ++ [l.getD c 0] = l.take (c + 1) := by
  rw [List.take_succ, List.getElem?_eq_getElem hc, List.getD_eq_getElem _ _ hc]
  rfl

theorem decodeImageRow_encode {m : Nat} (hm : 1 ≤ m) (img : List (List Nat))
    (W r : Nat) (hWr : (img.getD r []).length = W)
    (hpix : ∀ p ∈ img.getD r [], p ≤ 255) :
    ∀ (n c : Nat) (s : List Bool), c + n = W →
      decodeImageRow m (prevRowOf img r) ((img.getD r []).take c) n
          (((List.range' c n).map fun c' =>
              golombEncode m .INTERLEAVING (residualAt img r c')).flatten ++ s)
        = some (img.getD r [], s) := by
  intro n
  induction n with
  | zero =>
      intro c s hc
      have hcW : c = W := by omega
      subst hcW
      rw [← hWr, List.take_length]
      simp [decodeImageRow]
  | succ n ih =>
      intro c s hc
      have hcW : c < W := by omega
      have hcl : c < (img.getD r []).length := by omega
      have hlen : ((img.getD r []).take c).length = c := by
        simp only [List.length_take]
        omega
      have hA : (if c = 0 then (0 : Int)
            else (((img.getD r []).take c).getD (c - 1) 0 : Nat))
          = get_pixel img r ((c : Int) - 1) := by
        cases c with
        | zero => simp [get_pixel]
        | succ c' =>
            have h1 : ¬ ((r : Int) < 0 ∨ ((c' + 1 : Nat) : Int) - 1 < 0) := by
              push_neg
              constructor <;> omega
            have h2 : (((c' + 1 : Nat) : Int) - 1).toNat = c' := by omega
            have h3 : ((r : Nat) : Int).toNat = r := by omega
            rw [if_neg (Nat.succ_ne_zero c'), get_pixel, if_neg h1, h2, h3]
            simp only [Nat.add_sub_cancel]
            rw [getD_take_eq _ _ _ (by omega) (by omega)]
      have hB : (((prevRowOf img r).getD c 0 : Nat) : Int)
          = get_pixel img ((r : Int) - 1) c := by
        cases r with
        | zero => simp [prevRowOf, get_pixel, List.getD_nil]
        | succ r' =>
            have h1 : ¬ (((r' + 1 : Nat) : Int) - 1 < 0 ∨ ((c : Nat) : Int) < 0) := by
              push_neg
              constructor <;> omega
            have h2 : (((r' + 1 : Nat) : Int) - 1).toNat = r' := by omega
            have h3 : ((c : Nat) : Int).toNat = c := by omega
            rw [get_pixel, if_neg h1, h2, h3]
            simp [prevRowOf]
      have hC : (if c = 0 then (0 : Int)
            else ((prevRowOf img r).getD (c - 1) 0 : Nat))
          = get_pixel img ((r : Int) - 1) ((c : Int) - 1) := by
        cases c with
        | zero => simp [get_pixel]
        | succ c' =>
            cases r with
            | zero => simp [prevRowOf, get_pixel, List.getD_nil]
            | succ r' =>
                have h1 : ¬ (((r' + 1 : Nat) : Int) - 1 < 0
                    ∨ ((c' + 1 : Nat) : Int) - 1 < 0) := by
                  push_neg
                  constructor <;> omega
                have h2 : (((r' + 1 : Nat) : Int) - 1).toNat = r' := by omega
                have h3 : (((c' + 1 : Nat) : Int) - 1).toNat = c' := by omega
                rw [if_neg (Nat.succ_ne_zero c'), get_pixel, if_neg h1, h2, h3]
                simp [prevRowOf]
      have hX : residualAt img r c
            + predict (get_pixel img r ((c : Int) - 1))
                (get_pixel img ((r : Int) - 1) c)
                (get_pixel img ((r : Int) - 1) ((c : Int) - 1))
          = (((img.getD r []).getD c 0 : Nat) : Int) := by
        simp only [residualAt]
        ring
      have hmem : (img.getD r []).getD c 0 ∈ img.getD r [] := by
        rw [List.getD_eq_getElem _ _ hcl]
        exact List.getElem_mem hcl
      have hle : (img.getD r []).getD c 0 ≤ 255 := hpix _ hmem
      have hn1 : ¬ ((((img.getD r []).getD c 0 : Nat) : Int) < 0) := by omega
      have hn2 : ¬ ((((img.getD r []).getD c 0 : Nat) : Int) > 255) := by omega
      have hdec := golombDecode_golombEncode hm .INTERLEAVING (residualAt img r c)
        ((((List.range' (c + 1) n).map fun c' =>
            golombEncode m .INTERLEAVING (residualAt img r c')).flatten) ++ s)
      have htake := take_concat_getD (img.getD r []) c hcl
      simp only [List.range'_succ, List.map_cons, List.flatten_cons,
        List.append_assoc, decodeImageRow, hlen, hA, hB, hC, hdec, hX,
        hn1, hn2, if_false, Int.toNat_natCast, htake]
      exact ih (c + 1) s (by omega)

theorem flatten_map_flatten {α β : Type} (g : α → List β) :
    ∀ (L : List (List α)),
      (L.flatten.map g).flatten = (L.map fun l => (l.map g).flatten).flatten := by
  intro L
  induction L with
  | nil => rfl
  | cons l ls ih =>
      simp only [List.flatten_cons, List.map_append, List.flatten_append,
        List.map_cons, ih]

theorem range_drop : ∀ (n m : Nat), (List.range n).drop m = List.range' m (n - m) := by
  intro n m
  apply List.ext_getElem
  · simp only [List.length_drop, List.length_range, List.length_range']
  · intro i h1 h2
    simp only [List.getElem_drop, List.getElem_range, List.getElem_range']
    omega

theorem range'_take : ∀ (n s k : Nat),
    (List.range' s n).take k = List.range' s (min k n) := by
  intro n s k
  apply List.ext_getElem
  · simp only [List.length_take, List.length_range']
  · intro i h1 h2
    have hi : i < (List.range' s n).length := by
      simp only [List.length_take, List.length_range'] at *
      omega
    rw [List.getElem_take]
    simp only [List.getElem_range']

theorem map_getD_self (l : List (List Nat)) :
    (List.range' 0 l.length).map (fun i => l.getD i []) = l := by
  apply List.ext_getElem
  · simp only [List.length_map, List.length_range']
  · intro i h1 h2
    simp only [List.getElem_map, List.getElem_range', Nat.zero_add, Nat.one_mul]
    rw [List.getD_eq_getElem _ _ h2]

theorem decodeImageRows_fuel_stable (adaptive : Bool) (W H : Nat) :
    ∀ (f g r m : Nat) (prevRow : List Nat) (s : List Bool),
      H - r ≤ f → H - r ≤ g →
      decodeImageRows adaptive W H f m r prevRow s
        = decodeImageRows adaptive W H g m r prevRow s := by
  intro f
  induction f with
  | zero =>
      intro g r m prevRow s hf hg
      have hr : H ≤ r := by omega
      cases g with
      | zero => rfl
      | succ g => simp [decodeImageRows, hr]
  | succ f ih =>
      intro g r m prevRow s hf hg
      by_cases hr : H ≤ r
      · cases g with
        | zero => simp [decodeImageRows, hr]
        | succ g => simp [decodeImageRows, hr]
      · cases g with
        | zero => omega
        | succ g =>
            have hf' : H - (r + 1) ≤ f := by omega
            have hg' : H - (r + 1) ≤ g := by omega
            simp only [decodeImageRows, hr, if_false]
            cases hrow : decodeImageRow
                (if adaptive && decide (r % IMAGE_BLOCK_SIZE_Y = 0) then
                    ((if (readNBits 16 s).1 = 0 then 1 else (readNBits 16 s).1),
                      (readNBits 16 s).2)
                  else (m, s)).1 prevRow [] W
                (if adaptive && decide (r % IMAGE_BLOCK_SIZE_Y = 0) then
                    ((if (readNBits 16 s).1 = 0 then 1 else (readNBits 16 s).1),
                      (readNBits 16 s).2)
                  else (m, s)).2 with
            | none => rfl
            | some rowS =>
                dsimp only
                rw [ih g (r + 1) _ rowS.1 rowS.2 hf' hg']

theorem decodeImageRows_inband (adaptive : Bool) (W : Nat)
    (img : List (List Nat)) {m : Nat} (hm : 1 ≤ m)
    (hWall : ∀ r' < img.length, (img.getD r' []).length = W)
    (hpixall : ∀ row ∈ img, ∀ p ∈ row, p ≤ 255) :
    ∀ (k r f : Nat) (S : List Bool) (out : List (List Nat) × List Bool),
      r + k ≤ img.length →
      (∀ i, i < k → adaptive = false ∨ ¬((r + i) % IMAGE_BLOCK_SIZE_Y = 0)) →
      decodeImageRows adaptive W img.length f m (r + k) (prevRowOf img (r + k)) S
        = some out →
      decodeImageRows adaptive W img.length (k + f) m r (prevRowOf img r)
          ((((List.range' r k).map fun r' =>
              ((rowResiduals img W r').map (golombEncode m .INTERLEAVING)).flatten).flatten)
            ++ S)
        = some ((List.range' r k).map (fun r' => img.getD r' []) ++ out.1, out.2) := by
  intro k
  induction k with
  | zero =>
      intro r f S out hrk hnohdr hcont
      simpa using hcont
  | succ k ih =>
      intro r f S out hrk hnohdr hcont
      have hrH : ¬ (img.length ≤ r) := by omega
      have hhdr : (adaptive && decide (r % IMAGE_BLOCK_SIZE_Y = 0)) = false := by
        rcases hnohdr 0 (by omega) with h | h
        · simp [h]
        · simp only [Nat.add_zero] at h
          simp [h]
      have hWr : (img.getD r []).length = W := hWall r (by omega)
      have hpixr : ∀ p ∈ img.getD r [], p ≤ 255 := by
        intro p hp
        have hrl : r < img.length := by omega
        have hmem : img.getD r [] ∈ img := by
          rw [List.getD_eq_getElem _ _ hrl]
          exact List.getElem_mem hrl
        exact hpixall _ hmem p hp
      have hrow := decodeImageRow_encode hm img W r hWr hpixr W 0
        ((((List.range' (r + 1) k).map fun r' =>
            ((rowResiduals img W r').map (golombEncode m .INTERLEAVING)).flatten).flatten)
          ++ S) (by omega)
      rw [List.take_zero] at hrow
      have hcw : ((rowResiduals img W r).map (golombEncode m .INTERLEAVING)).flatten
          = ((List.range' 0 W).map fun c' =>
              golombEncode m .INTERLEAVING (residualAt img r c')).flatten := by
        simp only [rowResiduals, List.map_map, List.range_eq_range']
        rfl
      have hprev1 : prevRowOf img (r + 1) = img.getD r [] := by
        simp [prevRowOf]
      have hcont' : decodeImageRows adaptive W img.length f m ((r + 1) + k)
          (prevRowOf img ((r + 1) + k)) S = some out := by
        rw [show (r + 1) + k = r + (k + 1) from by omega]
        exact hcont
      have hrec := ih (r + 1) f S out (by omega)
        (fun i hi => by
          rcases hnohdr (i + 1) (by omega) with h | h
          · exact Or.inl h
          · refine Or.inr ?_
            rw [show r + 1 + i = r + (i + 1) from by omega]
            exact h)
        hcont'
      rw [hprev1] at hrec
      have hfuel : (k + 1) + f = (k + f) + 1 := by omega
      rw [hfuel]
      simp only [List.range'_succ, List.map_cons, List.flatten_cons,
        List.append_assoc, decodeImageRows, hrH, if_false, hhdr,
        Bool.false_eq_true, hcw, hrow, hrec, List.cons_append]

theorem imageRowsResiduals_length (img : List (List Nat)) (W : Nat) :
    (imageRowsResiduals img W).length = img.length := by
  simp [imageRowsResiduals]

theorem decodeImageRows_step_hdr (W H f m r : Nat) (prevRow : List Nat)
    (s : List Bool) (hr : ¬ H ≤ r) (hr64 : r % IMAGE_BLOCK_SIZE_Y = 0) :
    decodeImageRows true W H (f + 1) m r prevRow s
      = match decodeImageRow (if (readNBits 16 s).1 = 0 then 1 else (readNBits 16 s).1)
            prevRow [] W (readNBits 16 s).2 with
        | none => none
        | some rowS =>
            match decodeImageRows true W H f
                (if (readNBits 16 s).1 = 0 then 1 else (readNBits 16 s).1)
                (r + 1) rowS.1 rowS.2 with
            | none => none
            | some rest => some (rowS.1 :: rest.1, rest.2) := by
  simp [decodeImageRows, hr, hr64]

set_option maxHeartbeats 1600000 in
theorem decodeImageRows_bands (adaptive : Bool) (chooseM : List Int → Nat)
    (hM : ∀ rs, 1 ≤ chooseM rs ∧ chooseM rs < 2 ^ 16)
    (W : Nat) (img : List (List Nat))
    (hWall : ∀ r' < img.length, (img.getD r' []).length = W)
    (hpixall : ∀ row ∈ img, ∀ p ∈ row, p ≤ 255) :
    ∀ (fuel r m : Nat) (rest : List Bool),
      img.length - r ≤ fuel → 1 ≤ m →
      (img.length ≤ r ∨ r % IMAGE_BLOCK_SIZE_Y = 0) →
      decodeImageRows adaptive W img.length fuel m r (prevRowOf img r)
          (encodeImageBands adaptive chooseM m
            ((chunkList IMAGE_BLOCK_SIZE_Y ((imageRowsResiduals img W).drop r)).map
              List.flatten) ++ rest)
        = some ((List.range' r (img.length - r)).map (fun r' => img.getD r' []), rest) := by
  have hRlen : (imageRowsResiduals img W).length = img.length :=
    imageRowsResiduals_length img W
  intro fuel
  induction fuel with
  | zero =>
      intro r m rest hf hm hr64
      have hr : img.length ≤ r := by omega
      have hdrop : (imageRowsResiduals img W).drop r = [] :=
        List.drop_eq_nil_of_le (by omega)
      have hlr : img.length - r = 0 := by omega
      rw [hdrop, hlr]
      simp [chunkList, chunksFuel, encodeImageBands, decodeImageRows, hr]
  | succ f ih =>
      intro r m rest hf hm hr64
      by_cases hr : img.length ≤ r
      · have hdrop : (imageRowsResiduals img W).drop r = [] :=
          List.drop_eq_nil_of_le (by omega)
        have hlr : img.length - r = 0 := by omega
        rw [hdrop, hlr]
        simp [chunkList, chunksFuel, encodeImageBands, decodeImageRows, hr]
      · have hrlt : r < img.length := by omega
        have hr64' : r % IMAGE_BLOCK_SIZE_Y = 0 := by
          rcases hr64 with h | h
          · omega
          · exact h
        have hdropne : (imageRowsResiduals img W).drop r ≠ [] := by
          intro h
          have := congrArg List.length h
          simp only [List.length_drop, hRlen, List.length_nil] at this
          omega
        rw [chunkList_cons IMAGE_BLOCK_SIZE_Y
          (by norm_num [IMAGE_BLOCK_SIZE_Y]) _ hdropne]
        set bandK := min IMAGE_BLOCK_SIZE_Y (img.length - r) with hbandK
        have hBSY : IMAGE_BLOCK_SIZE_Y = 64 := rfl
        have hbk1 : 1 ≤ bandK := by
          rw [hbandK, hBSY]
          omega
        have hbk64 : bandK ≤ IMAGE_BLOCK_SIZE_Y := by
          rw [hbandK]
          omega
        have hbklen : bandK ≤ img.length - r := by
          rw [hbandK]
          omega
        have hrkle : r + bandK ≤ img.length := by omega
        have hlenle1 : img.length - (r + bandK) ≤ f := by omega
        have hlenle2 : img.length - (r + bandK) ≤ (f + 1) - bandK := by omega
        have hlenle3 : img.length - (r + bandK) ≤ f - (bandK - 1) := by omega
        have hnext : img.length ≤ r + bandK ∨ (r + bandK) % IMAGE_BLOCK_SIZE_Y = 0 := by
          by_cases h64 : IMAGE_BLOCK_SIZE_Y ≤ img.length - r
          · right
            have hbeq : bandK = IMAGE_BLOCK_SIZE_Y := by rw [hbandK]; omega
            rw [hbeq, hBSY]
            rw [hBSY] at hr64'
            omega
          · left
            rw [hbandK]
            omega
        have hband : ((imageRowsResiduals img W).drop r).take IMAGE_BLOCK_SIZE_Y
            = (List.range' r bandK).map (rowResiduals img W) := by
          rw [imageRowsResiduals, ← List.map_drop, range_drop, ← List.map_take,
            range'_take]
        have hdd : ((imageRowsResiduals img W).drop r).drop IMAGE_BLOCK_SIZE_Y
            = (imageRowsResiduals img W).drop (r + IMAGE_BLOCK_SIZE_Y) :=
          List.drop_drop _ _ _
        have htaileq : (imageRowsResiduals img W).drop (r + IMAGE_BLOCK_SIZE_Y)
            = (imageRowsResiduals img W).drop (r + bandK) := by
          by_cases h64 : IMAGE_BLOCK_SIZE_Y ≤ img.length - r
          · have : r + IMAGE_BLOCK_SIZE_Y = r + bandK := by omega
            rw [this]
          · rw [List.drop_eq_nil_of_le (by omega),
              List.drop_eq_nil_of_le (by omega)]
        have hbandcw : ∀ mB : Nat,
            (((((imageRowsResiduals img W).drop r).take IMAGE_BLOCK_SIZE_Y).flatten.map
                (golombEncode mB .INTERLEAVING)).flatten)
            = ((List.range' r bandK).map fun r' =>
                ((rowResiduals img W r').map (golombEncode mB .INTERLEAVING)).flatten).flatten := by
          intro mB
          rw [flatten_map_flatten, hband, List.map_map]
          rfl
        have hrangesplit : List.range' r (img.length - r)
            = List.range' r bandK ++ List.range' (r + bandK) (img.length - r - bandK) := by
          have h1 := List.range'_append r bandK (img.length - r - bandK) 1
          simp only [Nat.one_mul] at h1
          rw [h1]
          congr 1
          omega
        cases adaptive with
        | false =>
            have hIH := ih (r + bandK) m rest hlenle1 hm hnext
            have hcont := (decodeImageRows_fuel_stable false W img.length f
              ((f + 1) - bandK) (r + bandK) m (prevRowOf img (r + bandK))
              (encodeImageBands false chooseM m
                ((chunkList IMAGE_BLOCK_SIZE_Y
                  ((imageRowsResiduals img W).drop (r + bandK))).map List.flatten) ++ rest)
              hlenle1 hlenle2).symm.trans hIH
            have hinband := decodeImageRows_inband false W img hm hWall hpixall
              bandK r ((f + 1) - bandK)
              (encodeImageBands false chooseM m
                ((chunkList IMAGE_BLOCK_SIZE_Y
                  ((imageRowsResiduals img W).drop (r + bandK))).map List.flatten) ++ rest)
              ((List.range' (r + bandK) (img.length - (r + bandK))).map
                  (fun r' => img.getD r' []), rest)
              hrkle (fun i _ => Or.inl rfl) hcont
            have hfuel : bandK + ((f + 1) - bandK) = f + 1 := by omega
            rw [hfuel] at hinband
            simp only [List.map_cons, encodeImageBands, Bool.false_eq_true,
              if_false, List.nil_append, List.append_assoc, hbandcw, htaileq, hdd,
              hinband]
            rw [hrangesplit]
            simp only [List.map_append]
            rw [show img.length - r - bandK = img.length - (r + bandK) from by omega]
        | true =>
            have hmA := hM (((imageRowsResiduals img W).drop r).take
              IMAGE_BLOCK_SIZE_Y).flatten
            set mA := chooseM (((imageRowsResiduals img W).drop r).take
              IMAGE_BLOCK_SIZE_Y).flatten with hmAdef
            have hmA1 : 1 ≤ mA := hmA.1
            have hmA2 : mA < 2 ^ 16 := hmA.2
            have hIH := ih (r + bandK) mA rest hlenle1 hmA1 hnext
            have hcont := (decodeImageRows_fuel_stable true W img.length f
              (f - (bandK - 1)) (r + bandK) mA (prevRowOf img (r + bandK))
              (encodeImageBands true chooseM mA
                ((chunkList IMAGE_BLOCK_SIZE_Y
                  ((imageRowsResiduals img W).drop (r + bandK))).map List.flatten) ++ rest)
              hlenle1 hlenle3).symm.trans hIH
            have hcont' : decodeImageRows true W img.length (f - (bandK - 1)) mA
                ((r + 1) + (bandK - 1)) (prevRowOf img ((r + 1) + (bandK - 1)))
                (encodeImageBands true chooseM mA
                  ((chunkList IMAGE_BLOCK_SIZE_Y
                    ((imageRowsResiduals img W).drop (r + bandK))).map List.flatten) ++ rest)
              = some ((List.range' (r + bandK) (img.length - (r + bandK))).map
                  (fun r' => img.getD r' []), rest) := by
              rw [show (r + 1) + (bandK - 1) = r + bandK from by omega]
              exact hcont
            have hrk1 : (r + 1) + (bandK - 1) ≤ img.length := by omega
            have hinband := decodeImageRows_inband true W img hmA1 hWall hpixall
              (bandK - 1) (r + 1) (f - (bandK - 1))
              (encodeImageBands true chooseM mA
                ((chunkList IMAGE_BLOCK_SIZE_Y
                  ((imageRowsResiduals img W).drop (r + bandK))).map List.flatten) ++ rest)
              ((List.range' (r + bandK) (img.length - (r + bandK))).map
                  (fun r' => img.getD r' []), rest)
              hrk1
              (fun i hi => by
                right
                rw [hBSY]
                rw [hBSY] at hr64' hbk64
                omega)
              hcont'
            have hfuel2 : (bandK - 1) + (f - (bandK - 1)) = f := by omega
            rw [hfuel2] at hinband
            have hWr : (img.getD r []).length = W := hWall r hrlt
            have hpixr : ∀ p ∈ img.getD r [], p ≤ 255 := by
              intro p hp
              have hmem : img.getD r [] ∈ img := by
                rw [List.getD_eq_getElem _ _ hrlt]
                exact List.getElem_mem hrlt
              exact hpixall _ hmem p hp
            have hprev1 : prevRowOf img (r + 1) = img.getD r [] := by
              simp [prevRowOf]
            have hbksplit : List.range' r bandK = r :: List.range' (r + 1) (bandK - 1) := by
              conv_lhs => rw [show bandK = (bandK - 1) + 1 from by omega]
              rw [List.range'_succ]
            have hrowlem := decodeImageRow_encode hmA1 img W r hWr hpixr W 0
              ((((List.range' (r + 1) (bandK - 1)).map fun r' =>
                  ((rowResiduals img W r').map (golombEncode mA .INTERLEAVING)).flatten).flatten)
                ++ (encodeImageBands true chooseM mA
                  ((chunkList IMAGE_BLOCK_SIZE_Y
                    ((imageRowsResiduals img W).drop (r + bandK))).map List.flatten) ++ rest))
              (by omega)
            rw [List.take_zero] at hrowlem
            have hcw0 : ((rowResiduals img W r).map (golombEncode mA .INTERLEAVING)).flatten
                = ((List.range' 0 W).map fun c' =>
                    golombEncode mA .INTERLEAVING (residualAt img r c')).flatten := by
              simp only [rowResiduals, List.map_map, List.range_eq_range']
              rfl
            have hread := readNBits_of_lt mA 16
              (((((imageRowsResiduals img W).drop r).take IMAGE_BLOCK_SIZE_Y).flatten.map
                  (golombEncode mA .INTERLEAVING)).flatten
                ++ (encodeImageBands true chooseM mA
                  ((chunkList IMAGE_BLOCK_SIZE_Y
                    ((imageRowsResiduals img W).drop (r + bandK))).map List.flatten) ++ rest))
              hmA2
            have hclamp : ¬ (mA = 0) := by omega
            have hhdr : (true && decide (r % IMAGE_BLOCK_SIZE_Y = 0)) = true := by
              simp [hr64']
            rw [hprev1] at hinband
            simp only [List.map_cons, hdd, htaileq]
            simp only [encodeImageBands, if_true]
            rw [← hmAdef]
            simp only [List.append_assoc]
            rw [decodeImageRows_step_hdr W img.length f m r _ _ hr hr64']
            rw [hread]
            dsimp only
            simp only [hclamp, if_false]
            rw [hbandcw mA, hbksplit]
            simp only [List.map_cons, List.flatten_cons, List.append_assoc, hcw0]
            rw [hrowlem]
            dsimp only
            rw [hinband]
            dsimp only
            rw [hrangesplit, hbksplit]
            simp only [List.map_cons, List.map_append, List.cons_append]
            rw [show img.length - r - bandK = img.length - (r + bandK) from by omega]

/-- C2 (amended): for every 8-bit greyscale image of size `W x H` (including
`H < 64`, `H = 64`, `H = 65`, `W = 1` and every other size), encode followed
by decode reproduces every pixel bit-exactly — in fixed-m mode for every
`1 <= m <= 65535`, and in adaptive mode unconditionally; trailing padding
bits after the stream are ignored. The claim as stated (every fixed
`m >= 1`) fails at `m = 65536`: see the counterexample. `chooseM` abstracts
`calculate_m`, whose results always lie in `[1, 65535]`. -/
theorem image_roundtrip (img : List (List Nat)) (W : Nat) (adaptive : Bool)
    (chooseM : List Int → Nat) (fixedM : Nat) (extra : List Bool)
    (hM : ∀ rs, 1 ≤ chooseM rs ∧ chooseM rs < 2 ^ 16)
    (hfm : adaptive = false → 1 ≤ fixedM ∧ fixedM < 2 ^ 16)
    (hWall : ∀ row ∈ img, row.length = W)
    (hpixall : ∀ row ∈ img, ∀ p ∈ row, p ≤ 255) :
    imageDecode (imageEncode adaptive chooseM fixedM img W).1
        ((imageEncode adaptive chooseM fixedM img W).2 ++ extra)
      = .ok img := by
  have hWall' : ∀ r' < img.length, (img.getD r' []).length = W := by
    intro r' hr'
    rw [List.getD_eq_getElem _ _ hr']
    exact hWall _ (List.getElem_mem hr')
  have hself := map_getD_self img
  cases adaptive with
  | false =>
      have hfm' := hfm rfl
      have hmod : fixedM % 2 ^ 16 = fixedM := Nat.mod_eq_of_lt hfm'.2
      have hfm0 : ¬ (fixedM = 0) := by omega
      have hband := decodeImageRows_bands false chooseM hM W img hWall' hpixall
        img.length 0 fixedM extra (by omega) hfm'.1
        (Or.inr (by norm_num [IMAGE_BLOCK_SIZE_Y]))
      rw [List.drop_zero] at hband
      simp only [Nat.sub_zero, hself, show prevRowOf img 0 = [] from rfl] at hband
      simp only [imageEncode, imageDecode, Bool.false_eq_true, if_false, hmod,
        hfm0, hband]
  | true =>
      have hband := decodeImageRows_bands true chooseM hM W img hWall' hpixall
        img.length 0 1 extra (by omega) le_rfl
        (Or.inr (by norm_num [IMAGE_BLOCK_SIZE_Y]))
      rw [List.drop_zero] at hband
      simp only [Nat.sub_zero, hself, show prevRowOf img 0 = [] from rfl] at hband
      simp only [imageEncode, imageDecode, if_true, one_ne_zero, if_false, hband]

theorem image_roundtrip_witness :
    imageDecode (imageEncode false (fun _ => 1) 4 [[50, 60], [70, 90]] 2).1
        ((imageEncode false (fun _ => 1) 4 [[50, 60], [70, 90]] 2).2 ++ [])
      = .ok [[50, 60], [70, 90]] :=
  image_roundtrip [[50, 60], [70, 90]] 2 false (fun _ => 1) 4 []
    (fun _ => ⟨le_rfl, by norm_num⟩) (fun _ => ⟨by norm_num, by norm_num⟩)
    (by decide) (by decide)

/-- C2 counterexample: the claim quantifies over every fixed `m >= 1`, but at
`m = 65536` the 1x1 image `[[7]]` does not round-trip: the header stores
`(uint16_t) 65536 = 0` and the decoder's Golomb constructor throws
`InvalidParameter`. -/
theorem image_roundtrip_counterexample :
    imageDecode (imageEncode false (fun _ => 1) 65536 [[7]] 1).1
        (imageEncode false (fun _ => 1) 65536 [[7]] 1).2
      ≠ .ok [[7]] ∧
    imageDecode (imageEncode false (fun _ => 1) 65536 [[7]] 1).1
        (imageEncode false (fun _ => 1) 65536 [[7]] 1).2
      = .error .InvalidParameter ∧
    1 ≤ 65536 := by
  refine ⟨by decide, by decide, by norm_num⟩

/-- C6: the image codec predicts from `A = x(r, c-1)`, `B = x(r-1, c)`,
`C = x(r-1, c-1)` with out-of-bounds neighbours read as 0, choosing
`min(A, B)` when `C >= max(A, B)`, `max(A, B)` when `C <= min(A, B)`, and
`A + B - C` otherwise; on the 2x2 grid `[[50, 60], [70, 90]]` the residuals
in raster order are `50, 10, 20, 20`. -/
theorem image_med_predictor :
    (∀ (img : List (List Nat)) (r c : Int), (r < 0 ∨ c < 0) → get_pixel img r c = 0) ∧
    (∀ A B C : Int, C ≥ max A B → predict A B C = min A B) ∧
    (∀ A B C : Int, C ≤ min A B → predict A B C = max A B) ∧
    (∀ A B C : Int, min A B < C → C < max A B → predict A B C = A + B - C) ∧
    imageRowsResiduals [[50, 60], [70, 90]] 2 = [[50, 10], [20, 20]] := by
  refine ⟨?_, ?_, ?_, ?_, by decide⟩
  · intro img r c h
    simp [get_pixel, h]
  · intro A B C h
    simp only [predict]
    split_ifs <;> omega
  · intro A B C h
    simp only [predict]
    split_ifs <;> omega
  · intro A B C h1 h2
    simp only [predict]
    split_ifs <;> omega

theorem image_med_predictor_witness :
    get_pixel [[9]] (-1) 0 = 0 ∧ predict 10 20 25 = 10 ∧ predict 10 20 5 = 20 ∧
    predict 10 20 15 = 15 :=
  ⟨image_med_predictor.1 [[9]] (-1) 0 (Or.inl (by decide)),
   image_med_predictor.2.1 10 20 25 (by decide),
   image_med_predictor.2.2.1 10 20 5 (by decide),
   image_med_predictor.2.2.2.1 10 20 15 (by decide) (by decide)⟩

theorem getD_pix_bound (l : List Nat) (n : Nat) (h : ∀ p ∈ l, p ≤ 255) :
    l.getD n 0 ≤ 255 := by
  by_cases hn : n < l.length
  · rw [List.getD_eq_getElem _ _ hn]
    exact h _ (List.getElem_mem hn)
  · rw [List.getD_eq_default _ _ (by omega)]
    omega

theorem get_pixel_bound (img : List (List Nat)) (r c : Int)
    (hpix : ∀ row ∈ img, ∀ p ∈ row, p ≤ 255) :
    0 ≤ get_pixel img r c ∧ get_pixel img r c ≤ 255 := by
  rw [get_pixel]
  split_ifs with h
  · omega
  · have hrow : ∀ p ∈ img.getD r.toNat [], p ≤ 255 := by
      by_cases hrl : r.toNat < img.length
      · rw [List.getD_eq_getElem _ _ hrl]
        exact hpix _ (List.getElem_mem hrl)
      · rw [List.getD_eq_default _ _ (by omega)]
        intro p hp
        simp at hp
    have := getD_pix_bound (img.getD r.toNat []) c.toNat hrow
    omega

theorem predict_bound (A B C : Int) (hA : 0 ≤ A ∧ A ≤ 255) (hB : 0 ≤ B ∧ B ≤ 255)
    (hC : 0 ≤ C ∧ C ≤ 255) : 0 ≤ predict A B C ∧ predict A B C ≤ 255 := by
  simp only [predict]
  split_ifs <;> omega

theorem monoResiduals_mem_bound :
    ∀ (xs : List Int) (pred : Int),
      (∀ x ∈ xs, -2 ^ 15 ≤ x ∧ x < 2 ^ 15) → -2 ^ 15 ≤ pred → pred < 2 ^ 15 →
      ∀ e ∈ (monoResiduals pred xs).1, -65535 ≤ e ∧ e ≤ 65535 := by
  intro xs
  induction xs with
  | nil =>
      intro pred _ _ _ e he
      simp [monoResiduals] at he
  | cons l xs ih =>
      intro pred hx h1 h2 e he
      simp only [monoResiduals, List.mem_cons] at he
      rcases he with rfl | he
      · have := hx l (by simp)
        omega
      · exact ih l (fun y hy => hx y (by simp [hy])) (hx l (by simp)).1
          (hx l (by simp)).2 e he

theorem stereoResiduals_mem_bound :
    ∀ (fs : List (Int × Int)) (pred : Int),
      (∀ f ∈ fs, (-2 ^ 15 ≤ f.1 ∧ f.1 < 2 ^ 15) ∧ (-2 ^ 15 ≤ f.2 ∧ f.2 < 2 ^ 15)) →
      -2 ^ 15 ≤ pred → pred < 2 ^ 15 →
      ∀ e ∈ (stereoResiduals pred fs).1, -65535 ≤ e ∧ e ≤ 65535 := by
  intro fs
  induction fs with
  | nil =>
      intro pred _ _ _ e he
      simp [stereoResiduals] at he
  | cons f fs ih =>
      intro pred hx h1 h2 e he
      simp only [stereoResiduals, List.mem_cons] at he
      have hf := hx f (by simp)
      rcases he with rfl | rfl | he
      · omega
      · omega
      · exact ih f.1 (fun y hy => hx y (by simp [hy])) hf.1.1 hf.1.2 e he

/-- C7: for 8-bit pixel inputs every image-encoder residual lies in
`[-255, 255]` (the MED prediction lies in `[0, 255]`), and for 16-bit PCM
inputs every audio-encoder residual (mono or stereo, for any predictor state
in 16-bit range, which covers the initial 0 and every carried sample) lies
in `[-65535, 65535]`. -/
theorem residual_ranges :
    (∀ (img : List (List Nat)) (r c : Nat),
        (∀ row ∈ img, ∀ p ∈ row, p ≤ 255) →
        r < img.length → c < (img.getD r []).length →
        -255 ≤ residualAt img r c ∧ residualAt img r c ≤ 255) ∧
    (∀ (xs : List Int) (pred : Int),
        (∀ x ∈ xs, -2 ^ 15 ≤ x ∧ x < 2 ^ 15) → -2 ^ 15 ≤ pred → pred < 2 ^ 15 →
        ∀ e ∈ (monoResiduals pred xs).1, -65535 ≤ e ∧ e ≤ 65535) ∧
    (∀ (fs : List (Int × Int)) (pred : Int),
        (∀ f ∈ fs, (-2 ^ 15 ≤ f.1 ∧ f.1 < 2 ^ 15) ∧ (-2 ^ 15 ≤ f.2 ∧ f.2 < 2 ^ 15)) →
        -2 ^ 15 ≤ pred → pred < 2 ^ 15 →
        ∀ e ∈ (stereoResiduals pred fs).1, -65535 ≤ e ∧ e ≤ 65535) := by
  refine ⟨?_, monoResiduals_mem_bound, stereoResiduals_mem_bound⟩
  intro img r c hpix hr hc
  have hA := get_pixel_bound img r ((c : Int) - 1) hpix
  have hB := get_pixel_bound img ((r : Int) - 1) c hpix
  have hC := get_pixel_bound img ((r : Int) - 1) ((c : Int) - 1) hpix
  have hP := predict_bound _ _ _ hA hB hC
  have hrowmem : img.getD r [] ∈ img := by
    rw [List.getD_eq_getElem _ _ hr]
    exact List.getElem_mem hr
  have hXmem : (img.getD r []).getD c 0 ∈ img.getD r [] := by
    rw [List.getD_eq_getElem _ _ hc]
    exact List.getElem_mem hc
  have hX : (img.getD r []).getD c 0 ≤ 255 := hpix _ hrowmem _ hXmem
  simp only [residualAt]
  omega

theorem residual_ranges_witness :
    (-255 ≤ residualAt [[50, 60], [70, 90]] 1 1
        ∧ residualAt [[50, 60], [70, 90]] 1 1 ≤ 255) ∧
    (-65535 ≤ ((5 : Int) - 0) ∧ ((5 : Int) - 0) ≤ 65535) ∧
    (-65535 ≤ ((17 : Int) - 3) ∧ ((17 : Int) - 3) ≤ 65535) :=
  ⟨residual_ranges.1 [[50, 60], [70, 90]] 1 1 (by decide) (by decide) (by decide),
   residual_ranges.2.1 [5] 0 (by decide) (by decide) (by decide) (5 - 0) (by decide),
   residual_ranges.2.2 [(3, 17)] 3 (by decide) (by decide) (by decide) (17 - 3)
     (by decide)⟩

end GACL
